import Mathlib

/-
Verification of the core of a regex engine: the compiler lowering a parsed
syntax tree to VM instructions (compile.rs), the program representation with
its prefix/anchor analyses, engine selection and dispatch (program.rs).

Characters are modelled as natural-number code points.  External collaborators
(parser, case folding, the literal multi-string matcher, the two matching
engines) are taken as parameters of the functions that consume them.  Rust
panics (out-of-bounds indexing, `expect`, invalid back-patches) are modelled
as explicit failure values, never as ordinary success.
-/

namespace Regex

/-! ### Instructions (program.rs) -/

/-- Size in bytes of one `Inst` value on the reference 64-bit platform; only
its positivity matters for the size-limit arguments. -/
def instSize : Nat := 40

/-- The set of zero-width match instructions. -/
inductive LookInst where
  | StartLine
  | EndLine
  | StartText
  | EndText
  | WordBoundary
  | NotWordBoundary
deriving DecidableEq, Repr

/-- A single character instruction. -/
structure OneChar where
  c : Nat
  casei : Bool
deriving DecidableEq, Repr

/-- A multi-range character class instruction: sorted sequence of
non-overlapping inclusive ranges, plus a case-insensitivity flag. -/
structure CharRanges where
  ranges : List (Nat × Nat)
  casei : Bool
deriving DecidableEq, Repr

/-- An instruction, the underlying unit of a compiled regular expression. -/
inductive Inst where
  | Match
  | Save (slot : Nat)
  | Jump (target : Nat)
  | Split (t1 t2 : Nat)
  | EmptyLook (look : LookInst)
  | Char (oc : OneChar)
  | Ranges (cr : CharRanges)
deriving DecidableEq, Repr

/-! ### CharRanges.matches (program.rs lines 124-149)

The input character is folded when `casei` is set; then a linear scan over the
first `min(len, 4)` ranges, followed by the Rust 1.0 `binary_search_by` loop
over the whole slice.  `fold` is the external case-folding collaborator. -/

/-- Linear scan of the leading ranges: `some none` is an early "no match",
`some (some i)` is a hit in range `i`, `none` falls through to binary
search.  `k` counts the remaining iterations, starting at `min(len, 4)`. -/
def linScan (rs : List (Nat × Nat)) (c : Nat) : Nat → Nat → Option (Option Nat)
  | _, 0 => none
  | i, k + 1 =>
    let r := rs.getD i (0, 0)
    if c < r.1 then some none
    else if c ≤ r.2 then some (some i)
    else linScan rs c (i + 1) k

/-- The Rust 1.0 `binary_search_by` loop specialised to the range comparator
`|r| if r.1 < c then Less else if r.0 > c then Greater else Equal`, with the
final `.ok()` applied (so the `Err` payload is dropped). -/
def bsLoop (rs : List (Nat × Nat)) (c : Nat) (base : Nat) (lim : Nat) : Option Nat :=
  if h : lim = 0 then none
  else
    let ix := base + lim / 2
    let r := rs.getD ix (0, 0)
    if r.2 < c then bsLoop rs c (ix + 1) ((lim - 1) / 2)
    else if r.1 > c then bsLoop rs c base (lim / 2)
    else some ix
termination_by lim
decreasing_by
  all_goals omega

/-- Tests whether the given input character matches this instruction,
returning the index of the matched range. -/
def CharRanges.mtch (fold : Nat → Nat) (self : CharRanges) (c0 : Nat) : Option Nat :=
  let c := if self.casei then fold c0 else c0
  match linScan self.ranges c 0 (min self.ranges.length 4) with
  | some r => r
  | none => bsLoop self.ranges c 0 self.ranges.length

/-! ### The regex syntax tree consumed by the compiler -/

/-- Repetition kinds. -/
inductive Repeater where
  | ZeroOrOne
  | ZeroOrMore
  | OneOrMore
  | Range (min : Nat) (max : Option Nat)
deriving DecidableEq, Repr

/-- Parsed regex expression tree (the external parser's output type). -/
inductive Expr where
  | Empty
  | Literal (chars : List Nat) (casei : Bool)
  | AnyChar
  | AnyCharNoNL
  | Class (ranges : List (Nat × Nat)) (casei : Bool)
  | StartLine
  | EndLine
  | StartText
  | EndText
  | WordBoundary
  | NotWordBoundary
  | Group (e : Expr) (i : Option Nat) (name : Option String)
  | Concat (es : List Expr)
  | Alternate (es : List Expr)
  | Repeat (e : Expr) (r : Repeater) (greedy : Bool)

/-- Errors surfaced by compilation.  `bug` models a Rust panic (invalid
back-patch target or a `Group` with a name but no capture index), which is
never an ordinary result in the source. -/
inductive Error where
  | syntaxErr
  | compiledTooBig (limit : Nat)
  | bug
deriving DecidableEq, Repr

/-! ### Compiler (compile.rs) -/

/-- The compiler's mutable state: the growing instruction vector and the
parallel list of capture-group names. -/
structure CompState where
  insts : List Inst
  capNames : List (Option String)
deriving DecidableEq, Repr

/-- Appends the given instruction to the program. -/
def push (st : CompState) (x : Inst) : CompState :=
  { st with insts := st.insts ++ [x] }

/-- Appends an empty `Split` and returns its index together with the new
state. -/
def emptySplit (st : CompState) : Nat × CompState :=
  (st.insts.length, push st (.Split 0 0))

/-- Appends an empty `Jump` and returns its index together with the new
state. -/
def emptyJump (st : CompState) : Nat × CompState :=
  (st.insts.length, push st (.Jump 0))

/-- Patches the `Split` at index `i`; a panic (modelled as `Error.bug`) if the
instruction there is not a `Split`. -/
def setSplit (st : CompState) (i pc1 pc2 : Nat) : Except Error CompState :=
  match st.insts[i]? with
  | some (.Split _ _) => .ok { st with insts := st.insts.set i (.Split pc1 pc2) }
  | _ => .error .bug

/-- Patches the `Jump` at index `i`; a panic (modelled as `Error.bug`) if the
instruction there is not a `Jump`. -/
def setJump (st : CompState) (i pc : Nat) : Except Error CompState :=
  match st.insts[i]? with
  | some (.Jump _) => .ok { st with insts := st.insts.set i (.Jump pc) }
  | _ => .error .bug

/-- The size check run after each node finishes compiling. -/
def checkSize (sl : Nat) (st : CompState) : Except Error CompState :=
  if st.insts.length * instSize > sl then .error (.compiledTooBig sl) else .ok st

/-- Emission for a literal: one `Char` per character, folded when
case-insensitive. -/
def cLiteral (fold : Nat → Nat) (chars : List Nat) (casei : Bool) (st : CompState) : CompState :=
  chars.foldl (fun st ch => push st (.Char ⟨if casei then fold ch else ch, casei⟩)) st

mutual

/-- Termination measure for the compiler recursion. -/
def emeas : Expr → Nat
  | .Empty | .Literal _ _ | .AnyChar | .AnyCharNoNL | .Class _ _ => 1
  | .StartLine | .EndLine | .StartText | .EndText => 1
  | .WordBoundary | .NotWordBoundary => 1
  | .Group e _ _ => emeas e + 1
  | .Concat es => 1 + emeasList es
  | .Alternate es => 1 + emeasList es
  | .Repeat e (.Range _ _) _ => emeas e + 4
  | .Repeat e _ _ => emeas e + 1

/-- Termination measure for lists of expressions. -/
def emeasList : List Expr → Nat
  | [] => 0
  | e :: rest => emeas e + 1 + emeasList rest

end

mutual

/-- Lowers one syntax-tree node (the `Compiler::c` match), ending with the
size check exactly where the source does; the empty and singleton alternation
arms return early without a size check, as in the source. -/
def c (sl : Nat) (fold : Nat → Nat) (e : Expr) (st : CompState) : Except Error CompState :=
  match e with
  | .Empty => checkSize sl st
  | .Literal chars casei => checkSize sl (cLiteral fold chars casei st)
  | .AnyChar => checkSize sl (push st (.Ranges ⟨[(0, 0x10ffff)], false⟩))
  | .AnyCharNoNL => checkSize sl (push st (.Ranges ⟨[(0, 0x09), (0x0B, 0x10ffff)], false⟩))
  | .Class ranges casei =>
    match ranges with
    | [(s, e)] =>
      if s = e then checkSize sl (push st (.Char ⟨s, casei⟩))
      else checkSize sl (push st (.Ranges ⟨ranges, casei⟩))
    | _ => checkSize sl (push st (.Ranges ⟨ranges, casei⟩))
  | .StartLine => checkSize sl (push st (.EmptyLook .StartLine))
  | .EndLine => checkSize sl (push st (.EmptyLook .EndLine))
  | .StartText => checkSize sl (push st (.EmptyLook .StartText))
  | .EndText => checkSize sl (push st (.EmptyLook .EndText))
  | .WordBoundary => checkSize sl (push st (.EmptyLook .WordBoundary))
  | .NotWordBoundary => checkSize sl (push st (.EmptyLook .NotWordBoundary))
  | .Group e none none => do
    let st ← c sl fold e st
    checkSize sl st
  | .Group _ none (some _) => .error .bug
  | .Group e (some i) name => do
    let st := { st with capNames := st.capNames ++ [name] }
    let st := push st (.Save (2 * i))
    let st ← c sl fold e st
    let st := push st (.Save (2 * i + 1))
    checkSize sl st
  | .Concat es => do
    let st ← cList sl fold es st
    checkSize sl st
  | .Alternate [] => .ok st
  | .Alternate [e1] => c sl fold e1 st
  | .Alternate (e1 :: e2 :: rest) => do
    let (split, st) := emptySplit st
    let j1 := st.insts.length
    let st ← c sl fold e1 st
    let (jmp, st) := emptyJump st
    let j2 := st.insts.length
    let st ← c sl fold (.Alternate (e2 :: rest)) st
    let j3 := st.insts.length
    let st ← setSplit st split j1 j2
    let st ← setJump st jmp j3
    checkSize sl st
  | .Repeat e .ZeroOrOne greedy => do
    let (split, st) := emptySplit st
    let j1 := st.insts.length
    let st ← c sl fold e st
    let j2 := st.insts.length
    let st ← if greedy then setSplit st split j1 j2 else setSplit st split j2 j1
    checkSize sl st
  | .Repeat e .ZeroOrMore greedy => do
    let j1 := st.insts.length
    let (split, st) := emptySplit st
    let j2 := st.insts.length
    let st ← c sl fold e st
    let (jmp, st) := emptyJump st
    let j3 := st.insts.length
    let st ← setJump st jmp j1
    let st ← if greedy then setSplit st split j2 j3 else setSplit st split j3 j2
    checkSize sl st
  | .Repeat e .OneOrMore greedy => do
    let j1 := st.insts.length
    let st ← c sl fold e st
    let (split, st) := emptySplit st
    let j2 := st.insts.length
    let st ← if greedy then setSplit st split j1 j2 else setSplit st split j2 j1
    checkSize sl st
  | .Repeat e (.Range min none) greedy => do
    let st ← cTimes sl fold min e st
    let st ← c sl fold (.Repeat e .ZeroOrMore greedy) st
    checkSize sl st
  | .Repeat e (.Range min (some max)) greedy => do
    let st ← cTimes sl fold min e st
    let st ← cTimes sl fold (max - min) (.Repeat e .ZeroOrOne greedy) st
    checkSize sl st
termination_by (emeas e, 1)
decreasing_by
  all_goals simp_wf
  all_goals simp only [Prod.lex_def, emeas, emeasList]
  all_goals first
    | (left; omega)
    | (right; exact ⟨trivial, by omega⟩)

/-- Sequential compilation of a list of expressions (the `Concat` loop). -/
def cList (sl : Nat) (fold : Nat → Nat) (es : List Expr) (st : CompState) :
    Except Error CompState :=
  match es with
  | [] => .ok st
  | e :: rest => do
    let st ← c sl fold e st
    cList sl fold rest st
termination_by (emeasList es, 0)
decreasing_by
  all_goals simp_wf
  all_goals simp only [Prod.lex_def, emeas, emeasList]
  all_goals first
    | (left; omega)
    | (right; exact ⟨trivial, by omega⟩)

/-- Compiles the same expression `n` times in sequence (the counted-repetition
loops). -/
def cTimes (sl : Nat) (fold : Nat → Nat) (n : Nat) (e : Expr) (st : CompState) :
    Except Error CompState :=
  match n with
  | 0 => .ok st
  | n + 1 => do
    let st ← c sl fold e st
    cTimes sl fold n e st
termination_by (emeas e + 1, n)
decreasing_by
  all_goals simp_wf
  all_goals simp only [Prod.lex_def, emeas, emeasList]
  all_goals first
    | (left; omega)
    | (right; exact ⟨trivial, by omega⟩)

end

/-- Compiles a regex AST into instructions plus capture-group names
(`Compiler::compile`): `Save(0)`, the body, `Save(1)`, `Match`. -/
def compile (sl : Nat) (fold : Nat → Nat) (e : Expr) :
    Except Error (List Inst × List (Option String)) :=
  match c sl fold e ⟨[.Save 0], [none]⟩ with
  | .error er => .error er
  | .ok st => .ok (st.insts ++ [.Save 1, .Match], st.capNames)

/-! ### Capture accounting (program.rs num_captures) -/

/-- Return the number of captures in the given sequence of instructions: scan
for the maximal `Save` slot plus one, halved. -/
def numCaptures (insts : List Inst) : Nat :=
  (insts.foldl (fun n i => match i with | .Save c => max n (c + 1) | _ => n) 0) / 2

/-! ### Prefix and anchor analysis (program.rs lines 313-436)

Prefix strings are lists of code points; the length checks in the source are
on the UTF-8 byte length of a Rust `String`, modelled by `byteLen`.  The
loops of `prefixes_from_insts`, `leads_to_match` and the `Split` walk of
`find_prefixes` follow raw jump targets and so need not terminate on
arbitrary instruction vectors; they take explicit fuel, with exhaustion and
panics (out-of-bounds reads, `alts[0]` on an empty vector) as distinct
outcomes. -/

def NUM_PREFIX_LIMIT : Nat := 30
def PREFIX_LENGTH_LIMIT : Nat := 15

/-- Outcome of a fuelled loop: a value, a Rust panic, or fuel exhaustion. -/
inductive Res (α : Type) where
  | ok (a : α)
  | panicked
  | fuelOut
deriving DecidableEq, Repr

/-- UTF-8 encoded length in bytes of one code point. -/
def byteLen1 (cp : Nat) : Nat :=
  if cp < 0x80 then 1 else if cp < 0x800 then 2 else if cp < 0x10000 then 3 else 4

/-- UTF-8 byte length of a string of code points (Rust `String::len`). -/
def byteLen (s : List Nat) : Nat := (s.map byteLen1).sum

/-- Count of the characters in the given ranges as the source computes it:
the sum over the ranges of `hi - lo`. -/
def numCharsInRanges (ranges : List (Nat × Nat)) : Nat :=
  (ranges.map (fun p => p.2 - p.1)).foldl (· + ·) 0

/-- The code points of an inclusive range `lo..=hi` in increasing order. -/
def rangeChars (lo hi : Nat) : List Nat :=
  (List.range (hi + 1 - lo)).map (lo + ·)

/-- Cartesian expansion step of prefix extraction at a `Ranges` instruction:
for each range, for each covered code point, each old alt extended by that
code point. -/
def expandAlts (ranges : List (Nat × Nat)) (orig : List (List Nat)) : List (List Nat) :=
  ranges.foldl (fun alts p =>
    (rangeChars p.1 p.2).foldl (fun alts c => alts ++ orig.map (fun alt => alt ++ [c])) alts) []

/-- Conservative test whether `pc` trivially leads to `Match`, walking only
`Save` and `Jump`. -/
def leadsToMatch (insts : List Inst) : Nat → Nat → Res Bool
  | 0, _ => .fuelOut
  | fuel + 1, pc =>
    match insts[pc]? with
    | none => .panicked
    | some .Match => .ok true
    | some (.Save _) => leadsToMatch insts fuel (pc + 1)
    | some (.Jump t) => leadsToMatch insts fuel t
    | some _ => .ok false

/-- The tail of `prefixes_from_insts`: if the single alt is empty return
`([], false)`, else the alts with the computed completeness flag.  Reads
`alts[0]`, hence panics on an empty alts vector. -/
def finishPrefixes (alts : List (List Nat)) (complete : Bool) :
    Res (List (List Nat) × Bool) :=
  match alts with
  | [] => .panicked
  | a0 :: _ => if byteLen a0 = 0 then .ok ([], false) else .ok (alts, complete)

/-- Main loop of `prefixes_from_insts`.  Each iteration reads `alts[0]`
(panicking when alts is empty), stops with `complete = false` once the head
alt exceeds the byte-length limit, and otherwise steps by instruction:
`Save` is transparent, a case-sensitive `Char` extends every alt, a
case-sensitive `Ranges` either stops (limit exceeded) or expands, `Jump` is
followed, and anything else stops with `complete = leads_to_match pc`. -/
def prefixesLoop (insts : List Inst) : Nat → Nat → List (List Nat) →
    Res (List (List Nat) × Bool)
  | 0, _, _ => .fuelOut
  | fuel + 1, pc, alts =>
    match insts[pc]? with
    | none => finishPrefixes alts true
    | some inst =>
      match alts with
      | [] => .panicked
      | a0 :: _ =>
        if byteLen a0 > PREFIX_LENGTH_LIMIT then finishPrefixes alts false
        else
          match inst with
          | .Save _ => prefixesLoop insts fuel (pc + 1) alts
          | .Char ⟨ch, false⟩ => prefixesLoop insts fuel (pc + 1) (alts.map (· ++ [ch]))
          | .Ranges ⟨ranges, false⟩ =>
            if alts.length * numCharsInRanges ranges > NUM_PREFIX_LIMIT then
              finishPrefixes alts false
            else prefixesLoop insts fuel (pc + 1) (expandAlts ranges alts)
          | .Jump t => prefixesLoop insts fuel t alts
          | _ =>
            match leadsToMatch insts fuel pc with
            | .ok b => finishPrefixes alts b
            | .panicked => .panicked
            | .fuelOut => .fuelOut

/-- Find a prefix starting at the given instruction
(`Program::prefixes_from_insts`). -/
def prefixesFromInsts (insts : List Inst) (fuel : Nat) (pc : Nat) :
    Res (List (List Nat) × Bool) :=
  prefixesLoop insts fuel pc [[]]

/-- Is this instruction a `Split`? -/
def isSplit : Inst → Bool
  | .Split _ _ => true
  | _ => false

/-- The `while let Split(x, y)` walk of `find_prefixes`, accumulating
prefixes from the two sides of a chain of top-level splits.  Returns the
final `(prefixes, prefixes_complete)` field values; the source's early
`return`s leave the program's initial `([], false)`. -/
def splitWalk (insts : List Inst) : Nat → Nat → List (List Nat) → Bool →
    Res (List (List Nat) × Bool)
  | 0, _, _, _ => .fuelOut
  | fuel + 1, pc, prefixes, pcomplete =>
    match insts[pc]? with
    | none => .panicked
    | some (.Split x y) =>
      match prefixesFromInsts insts fuel x, prefixesFromInsts insts fuel y with
      | .panicked, _ | _, .panicked => .panicked
      | .fuelOut, _ | _, .fuelOut => .fuelOut
      | .ok (xps, xcomplete), .ok (yps, ycomplete) =>
        match insts[x]?, insts[y]? with
        | none, _ | _, none => .panicked
        | some ix, some iy =>
          if isSplit ix ∧ isSplit iy then .ok ([], false)
          else if isSplit iy ∧ xps.length = 0 then .ok ([], false)
          else if isSplit iy then
            let prefixes := prefixes ++ xps
            if prefixes.length > NUM_PREFIX_LIMIT then .ok ([], false)
            else splitWalk insts fuel y prefixes (pcomplete && xcomplete)
          else if isSplit ix ∧ yps.length = 0 then .ok ([], false)
          else if isSplit ix then
            let prefixes := prefixes ++ yps
            if prefixes.length > NUM_PREFIX_LIMIT then .ok ([], false)
            else splitWalk insts fuel x prefixes (pcomplete && ycomplete)
          else if xps.length = 0 ∨ yps.length = 0 then .ok ([], false)
          else
            let prefixes := prefixes ++ xps ++ yps
            if prefixes.length > NUM_PREFIX_LIMIT then .ok ([], false)
            else .ok (prefixes, (pcomplete && xcomplete && ycomplete) && prefixes.length > 0)
    | some _ => .ok (prefixes, pcomplete && prefixes.length > 0)

/-- Find and return the prefix set for the program
(`Program::find_prefixes`): first try the straight-line extraction from
pc 1; if it yields nothing, walk the chain of top-level splits. -/
def findPrefixes (insts : List Inst) (fuel : Nat) : Res (List (List Nat) × Bool) :=
  match prefixesFromInsts insts fuel 1 with
  | .panicked => .panicked
  | .fuelOut => .fuelOut
  | .ok (ps, complete) =>
    if ps.length > 0 then .ok (ps, complete)
    else splitWalk insts fuel 1 [] true

/-! ### Program (program.rs) -/

/-- The matching engines offered by this regex implementation. -/
inductive MatchEngine where
  | Backtrack
  | Nfa
  | Literals
deriving DecidableEq, Repr

/-- A compiled regular expression.  The original pattern string and the two
scratch pools are omitted: neither carries logical content for the claims
(pools hold only reusable engine scratch). -/
structure Program where
  insts : List Inst
  capNames : List (Option String)
  prefixes : List (List Nat)
  prefixesComplete : Bool
  anchoredBegin : Bool
  anchoredEnd : Bool
  engine : Option MatchEngine
deriving DecidableEq, Repr

/-- Does this instruction equal `EmptyLook(StartText)`? -/
def isStartText : Inst → Bool
  | .EmptyLook .StartText => true
  | _ => false

/-- Does this instruction equal `EmptyLook(EndText)`? -/
def isEndText : Inst → Bool
  | .EmptyLook .EndText => true
  | _ => false

/-- Builds a program from a parsed expression (`Program::new` minus the
external parse): compile, run prefix analysis, then derive the anchor flags
from `insts[1]` and `insts[len - 3]` (unguarded reads in the source,
modelled as panics when out of bounds). -/
def programNew (fuel : Nat) (engine : Option MatchEngine) (sizeLimit : Nat)
    (fold : Nat → Nat) (e : Expr) : Res (Except Error Program) :=
  match compile sizeLimit fold e with
  | .error er => .ok (.error er)
  | .ok (insts, capNames) =>
    match findPrefixes insts fuel with
    | .panicked => .panicked
    | .fuelOut => .fuelOut
    | .ok (ps, complete) =>
      match insts[1]?, insts[insts.length - 3]? with
      | some i1, some iEnd =>
        .ok (.ok
          { insts := insts
            capNames := capNames
            prefixes := ps
            prefixesComplete := complete
            anchoredBegin := isStartText i1
            anchoredEnd := isEndText iEnd
            engine := engine })
      | _, _ => .panicked

/-! ### Engine selection and dispatch (program.rs lines 258-299)

`pp` is the external `Prefix::preserves_priority`, `se` is the external
`Backtrack::should_exec`, `be`/`ne` the external engines (returning the
match flag and the updated capture vector), and `find` the external prefix
matcher search over a haystack suffix. -/

/-- Chooses the engine for one search (`Program::choose_engine`). -/
def Program.chooseEngine (pp : List (List Nat) → Bool)
    (se : Program → List Nat → Bool) (p : Program) (capLen : Nat)
    (text : List Nat) : MatchEngine :=
  match p.engine with
  | some eng => eng
  | none =>
    if capLen ≤ 2 && pp p.prefixes && p.prefixesComplete then .Literals
    else if se p text then .Backtrack
    else .Nfa

/-- Executes a compiled regex program (`Program::exec`), returning the match
flag and the final capture vector. -/
def Program.exec (pp : List (List Nat) → Bool) (se : Program → List Nat → Bool)
    (be ne : Program → List (Option Nat) → List Nat → Nat → Bool × List (Option Nat))
    (find : List (List Nat) → List Nat → Option (Nat × Nat)) (p : Program)
    (caps : List (Option Nat)) (text : List Nat) (start : Nat) :
    Bool × List (Option Nat) :=
  match p.chooseEngine pp se caps.length text with
  | .Backtrack => be p caps text start
  | .Nfa => ne p caps text start
  | .Literals =>
    match find p.prefixes (text.drop start) with
    | none => (false, caps)
    | some (s, e) =>
      if caps.length = 2 then
        (true, (caps.set 0 (some (start + s))).set 1 (some (start + e)))
      else (true, caps)

/-! ### Claim C3: engine selection -/

/-- C3: with no engine override, selection picks `Literals` iff the capture
length is at most 2, the prefix matcher preserves priority and the prefixes
are complete; otherwise `Backtrack` iff `should_exec` accepts; `Nfa` in all
remaining cases.  An override is returned unconditionally. -/
theorem claim3_engine_selection (pp : List (List Nat) → Bool)
    (se : Program → List Nat → Bool) (p : Program) (capLen : Nat)
    (text : List Nat) :
    (∀ eng, p.engine = some eng → p.chooseEngine pp se capLen text = eng) ∧
    (p.engine = none →
      ((p.chooseEngine pp se capLen text = .Literals ↔
          capLen ≤ 2 ∧ pp p.prefixes = true ∧ p.prefixesComplete = true) ∧
       (p.chooseEngine pp se capLen text = .Backtrack ↔
          ¬(capLen ≤ 2 ∧ pp p.prefixes = true ∧ p.prefixesComplete = true) ∧
          se p text = true) ∧
       (p.chooseEngine pp se capLen text = .Nfa ↔
          ¬(capLen ≤ 2 ∧ pp p.prefixes = true ∧ p.prefixesComplete = true) ∧
          se p text ≠ true))) := by
  refine ⟨fun eng h => by simp [Program.chooseEngine, h], fun h => ?_⟩
  simp only [Program.chooseEngine, h]
  by_cases h1 : (decide (capLen ≤ 2) && pp p.prefixes && p.prefixesComplete) = true
  · have h1' : capLen ≤ 2 ∧ pp p.prefixes = true ∧ p.prefixesComplete = true := by
      simpa [Bool.and_eq_true, and_assoc] using h1
    simp [h1, h1']
  · have h1' : ¬(capLen ≤ 2 ∧ pp p.prefixes = true ∧ p.prefixesComplete = true) := by
      simpa [Bool.and_eq_true, and_assoc] using h1
    by_cases h2 : se p text = true
    · simp [h1, h1', h2]
    · simp [h1, h1', h2]

/-- Witness for C3 at a concrete program: override absent, two capture
slots requested, priority preserved, prefixes complete. -/
theorem claim3_witness :
    Program.chooseEngine (fun _ => true) (fun _ _ => true)
      ⟨[], [], [[97]], true, false, false, none⟩ 2 [] = .Literals :=
  ((claim3_engine_selection (fun _ => true) (fun _ _ => true)
      ⟨[], [], [[97]], true, false, false, none⟩ 2 []).2 rfl).1.mpr
    (by decide)

/-! ### Claim C9: frame effect of the Literals engine -/

/-- C9: when dispatch lands on the Literals engine and the prefix matcher
finds a hit `(s, e)`, the search returns true; capture slots 0 and 1 are
written (as `start + s`, `start + e`) exactly when the caller's capture
vector has length 2, and for every other length the capture vector is
returned unchanged. -/
theorem claim9_literals_frame (pp : List (List Nat) → Bool)
    (se : Program → List Nat → Bool)
    (be ne : Program → List (Option Nat) → List Nat → Nat → Bool × List (Option Nat))
    (find : List (List Nat) → List Nat → Option (Nat × Nat)) (p : Program)
    (caps : List (Option Nat)) (text : List Nat) (start s e : Nat)
    (hEng : p.chooseEngine pp se caps.length text = .Literals)
    (hFind : find p.prefixes (text.drop start) = some (s, e)) :
    (p.exec pp se be ne find caps text start).1 = true ∧
    (caps.length = 2 →
      (p.exec pp se be ne find caps text start).2 =
        (caps.set 0 (some (start + s))).set 1 (some (start + e))) ∧
    (caps.length ≠ 2 →
      (p.exec pp se be ne find caps text start).2 = caps) := by
  unfold Program.exec
  rw [hEng]
  simp only [hFind]
  by_cases h : caps.length = 2 <;> simp [h]

/-- Witness for C9 under a forced Literals override with three capture
slots: the search reports a match and leaves the capture vector intact. -/
theorem claim9_witness :
    (Program.exec (fun _ => false) (fun _ _ => false)
        (fun _ cs _ _ => (false, cs)) (fun _ cs _ _ => (false, cs))
        (fun _ _ => some (0, 1)) ⟨[], [], [[97]], false, false, false, some .Literals⟩
        [none, none, none] [97] 0).2 = [none, none, none] :=
  (claim9_literals_frame (fun _ => false) (fun _ _ => false)
      (fun _ cs _ _ => (false, cs)) (fun _ cs _ _ => (false, cs))
      (fun _ _ => some (0, 1)) ⟨[], [], [[97]], false, false, false, some .Literals⟩
      [none, none, none] [97] 0 0 1 rfl rfl).2.2 (by decide)

/-! ### Claim C4: anchor flags -/

/-- Characterisation of the `EmptyLook(StartText)` test. -/
theorem isStartText_iff (i : Inst) : isStartText i = true ↔ i = .EmptyLook .StartText := by
  cases i with
  | EmptyLook look => cases look <;> simp [isStartText]
  | _ => simp [isStartText]

/-- Characterisation of the `EmptyLook(EndText)` test. -/
theorem isEndText_iff (i : Inst) : isEndText i = true ↔ i = .EmptyLook .EndText := by
  cases i with
  | EmptyLook look => cases look <;> simp [isEndText]
  | _ => simp [isEndText]

/-- C4: for every successfully built program, `anchored_begin` holds iff
`insts[1]` is `EmptyLook(StartText)`, and `anchored_end` holds iff
`insts[len - 3]` is `EmptyLook(EndText)`. -/
theorem claim4_anchor_flags (fuel : Nat) (engine : Option MatchEngine)
    (sl : Nat) (fold : Nat → Nat) (e : Expr) (p : Program)
    (h : programNew fuel engine sl fold e = .ok (.ok p)) :
    (p.anchoredBegin = true ↔ p.insts[1]? = some (.EmptyLook .StartText)) ∧
    (p.anchoredEnd = true ↔
      p.insts[p.insts.length - 3]? = some (.EmptyLook .EndText)) := by
  unfold programNew at h
  split at h
  · simp at h
  · split at h
    · simp at h
    · simp at h
    · split at h
      · rename_i insts capNames ps complete i1 iEnd h1 h2
        simp only [Res.ok.injEq, Except.ok.injEq] at h
        subst h
        constructor
        · simpa [h1] using isStartText_iff i1
        · simpa [h2] using isEndText_iff iEnd
      · simp at h

/-! ### Claim C5: CharRanges matching -/

/-- Well-formedness of a range list as documented on the struct: each range
is non-empty and the ranges are sorted and non-overlapping. -/
def RangesWF (rs : List (Nat × Nat)) : Prop :=
  (∀ p ∈ rs, p.1 ≤ p.2) ∧ List.Pairwise (fun p q => p.2 < q.1) rs

instance (rs : List (Nat × Nat)) : Decidable (RangesWF rs) := by
  unfold RangesWF; infer_instance

/-- The code point `c` lies in range `x` of the list. -/
def containsAt (rs : List (Nat × Nat)) (c : Nat) (x : Nat) : Prop :=
  ∃ (lo hi : Nat), rs[x]? = some (lo, hi) ∧ lo ≤ c ∧ c ≤ hi

/-- No range of the list covers the code point `c`. -/
def noContain (rs : List (Nat × Nat)) (c : Nat) : Prop :=
  ∀ (j lo hi : Nat), rs[j]? = some (lo, hi) → c < lo ∨ hi < c

theorem rangesWF_rel (rs : List (Nat × Nat)) (hwf : RangesWF rs) {i j : Nat}
    (hi : i < rs.length) (hj : j < rs.length) (hij : i < j) :
    rs[i].2 < rs[j].1 :=
  (List.pairwise_iff_getElem.mp hwf.2) i j hi hj hij

/-- Bounds from a successful optional index. -/
theorem lt_length_of_some {rs : List (Nat × Nat)} {j lo hi : Nat}
    (h : rs[j]? = some (lo, hi)) : j < rs.length := by
  by_contra hc
  rw [List.getElem?_eq_none (by omega)] at h
  exact Option.noConfusion h

/-- Components of a successful optional index. -/
theorem comps_of_some {rs : List (Nat × Nat)} {j lo hi : Nat}
    (hjlen : j < rs.length) (h : rs[j]? = some (lo, hi)) :
    rs[j].1 = lo ∧ rs[j].2 = hi := by
  rw [List.getElem?_eq_getElem hjlen, Option.some.injEq] at h
  rw [h]
  exact ⟨rfl, rfl⟩

/-- At most one range can contain a code point when the list is
well-formed. -/
theorem containsAt_unique (rs : List (Nat × Nat)) (c : Nat) (hwf : RangesWF rs)
    {x y : Nat} (hx : containsAt rs c x) (hy : containsAt rs c y) : x = y := by
  obtain ⟨lox, hix, hx1, hx2, hx3⟩ := hx
  obtain ⟨loy, hiy, hy1, hy2, hy3⟩ := hy
  have hxl : x < rs.length := lt_length_of_some hx1
  have hyl : y < rs.length := lt_length_of_some hy1
  obtain ⟨hx1a, hx1b⟩ := comps_of_some hxl hx1
  obtain ⟨hy1a, hy1b⟩ := comps_of_some hyl hy1
  rcases Nat.lt_trichotomy x y with h | h | h
  · have := rangesWF_rel rs hwf hxl hyl h
    omega
  · exact h
  · have := rangesWF_rel rs hwf hyl hxl h
    omega

/-- Correctness of the linear scan over the first `min(len, 4)` ranges. -/
theorem linScan_spec (rs : List (Nat × Nat)) (c : Nat) (hwf : RangesWF rs) :
    ∀ k i, i + k = min rs.length 4 →
      (∀ (j : Nat), j < i → ∀ (lo hi : Nat), rs[j]? = some (lo, hi) → hi < c) →
      (linScan rs c i k = some none → noContain rs c) ∧
      (∀ x, linScan rs c i k = some (some x) → containsAt rs c x) ∧
      (linScan rs c i k = none →
        ∀ (j : Nat), j < min rs.length 4 → ∀ (lo hi : Nat),
          rs[j]? = some (lo, hi) → hi < c) := by
  intro k
  induction k with
  | zero =>
    intro i hk hlow
    refine ⟨fun h => by simp [linScan] at h, fun x h => by simp [linScan] at h, ?_⟩
    intro _ j hj lo hi hget
    exact hlow j (by omega) lo hi hget
  | succ k ih =>
    intro i hk hlow
    have hilen : i < rs.length := by omega
    have hgetD : rs.getD i (0, 0) = rs[i] := List.getD_eq_getElem rs (0, 0) hilen
    have hgeti : rs[i]? = some rs[i] := List.getElem?_eq_getElem hilen
    have hlow2 : ¬ c ≤ rs[i].2 →
        ∀ (j : Nat), j < i + 1 → ∀ (lo hi : Nat), rs[j]? = some (lo, hi) → hi < c := by
      intro h2 j hj lo hi hget
      rcases Nat.lt_or_ge j i with hj2 | hj2
      · exact hlow j hj2 lo hi hget
      · have hji : j = i := by omega
        subst hji
        obtain ⟨hga, hgb⟩ := comps_of_some hilen hget
        omega
    refine ⟨?_, ?_, ?_⟩
    · intro h
      rw [linScan, hgetD] at h
      by_cases h1 : c < rs[i].1
      · intro j lo hi hget
        have hjlen : j < rs.length := lt_length_of_some hget
        obtain ⟨hga, hgb⟩ := comps_of_some hjlen hget
        rcases Nat.lt_trichotomy j i with hj | hj | hj
        · right; exact hlow j hj lo hi hget
        · left; subst hj; omega
        · left
          have hrel := rangesWF_rel rs hwf hilen hjlen hj
          have hle := hwf.1 rs[i] (List.getElem_mem hilen)
          omega
      · rw [if_neg h1] at h
        by_cases h2 : c ≤ rs[i].2
        · rw [if_pos h2] at h; exact Option.noConfusion (Option.some.inj h)
        · rw [if_neg h2] at h
          exact (ih (i + 1) (by omega) (hlow2 h2)).1 h
    · intro x h
      rw [linScan, hgetD] at h
      by_cases h1 : c < rs[i].1
      · rw [if_pos h1] at h; exact Option.noConfusion (Option.some.inj h)
      · rw [if_neg h1] at h
        by_cases h2 : c ≤ rs[i].2
        · rw [if_pos h2] at h
          have hx : i = x := Option.some.inj (Option.some.inj h)
          subst hx
          exact ⟨rs[i].1, rs[i].2, by rw [hgeti], by omega, h2⟩
        · rw [if_neg h2] at h
          exact (ih (i + 1) (by omega) (hlow2 h2)).2.1 x h
    · intro h
      rw [linScan, hgetD] at h
      by_cases h1 : c < rs[i].1
      · rw [if_pos h1] at h; exact Option.noConfusion h
      · rw [if_neg h1] at h
        by_cases h2 : c ≤ rs[i].2
        · rw [if_pos h2] at h; exact Option.noConfusion h
        · rw [if_neg h2] at h
          exact (ih (i + 1) (by omega) (hlow2 h2)).2.2 h

/-- Correctness of the Rust 1.0 `binary_search_by` loop under the invariant
that everything below `base` lies strictly below `c` and everything at or
above `base + lim` lies strictly above `c`. -/
theorem bsLoop_spec (rs : List (Nat × Nat)) (c : Nat) (hwf : RangesWF rs) :
    ∀ lim base, base + lim ≤ rs.length →
      (∀ (j : Nat), j < base → ∀ (lo hi : Nat), rs[j]? = some (lo, hi) → hi < c) →
      (∀ (j : Nat), base + lim ≤ j → ∀ (lo hi : Nat), rs[j]? = some (lo, hi) → c < lo) →
      (∀ x, bsLoop rs c base lim = some x → containsAt rs c x) ∧
      (bsLoop rs c base lim = none → noContain rs c) := by
  intro lim
  induction lim using Nat.strong_induction_on with
  | _ lim ih =>
    intro base hlen hlow hhigh
    by_cases h0 : lim = 0
    · subst h0
      refine ⟨fun x h => by rw [bsLoop] at h; simp at h, fun _ => ?_⟩
      intro j lo hi hget
      rcases Nat.lt_or_ge j base with hj | hj
      · right; exact hlow j hj lo hi hget
      · left; exact hhigh j (by omega) lo hi hget
    · have hix : base + lim / 2 < rs.length := by omega
      have hgetD : rs.getD (base + lim / 2) (0, 0) = rs[base + lim / 2] :=
        List.getD_eq_getElem rs (0, 0) hix
      have hgeti : rs[base + lim / 2]? = some rs[base + lim / 2] :=
        List.getElem?_eq_getElem hix
      have step : ∀ r, bsLoop rs c base lim = r →
          (if rs[base + lim / 2].2 < c then
            bsLoop rs c (base + lim / 2 + 1) ((lim - 1) / 2)
          else if rs[base + lim / 2].1 > c then bsLoop rs c base (lim / 2)
          else some (base + lim / 2)) = r := by
        intro r h
        rw [bsLoop, dif_neg h0] at h
        simp only [hgetD] at h
        exact h
      by_cases hA : rs[base + lim / 2].2 < c
      · have hrec := ih ((lim - 1) / 2) (by omega) (base + lim / 2 + 1) (by omega)
          (fun j hj lo hi hget => by
            have hjlen : j < rs.length := lt_length_of_some hget
            obtain ⟨hga, hgb⟩ := comps_of_some hjlen hget
            rcases Nat.lt_trichotomy j (base + lim / 2) with hj2 | hj2 | hj2
            · have hrel := rangesWF_rel rs hwf hjlen hix hj2
              have hle := hwf.1 rs[base + lim / 2] (List.getElem_mem hix)
              omega
            · subst hj2; omega
            · omega)
          (fun j hj lo hi hget => hhigh j (by omega) lo hi hget)
        refine ⟨fun x h => hrec.1 x ?_, fun h => hrec.2 ?_⟩
        · have := step (some x) h; rw [if_pos hA] at this; exact this
        · have := step none h; rw [if_pos hA] at this; exact this
      · by_cases hB : rs[base + lim / 2].1 > c
        · have hrec := ih (lim / 2) (by omega) base (by omega) hlow
            (fun j hj lo hi hget => by
              have hjlen : j < rs.length := lt_length_of_some hget
              obtain ⟨hga, hgb⟩ := comps_of_some hjlen hget
              rcases Nat.lt_trichotomy j (base + lim / 2) with hj2 | hj2 | hj2
              · omega
              · subst hj2; omega
              · have hrel := rangesWF_rel rs hwf hix hjlen hj2
                have hle := hwf.1 rs[base + lim / 2] (List.getElem_mem hix)
                omega)
          refine ⟨fun x h => hrec.1 x ?_, fun h => hrec.2 ?_⟩
          · have := step (some x) h; rw [if_neg hA, if_pos hB] at this; exact this
          · have := step none h; rw [if_neg hA, if_pos hB] at this; exact this
        · refine ⟨fun x h => ?_, fun h => ?_⟩
          · have := step (some x) h
            rw [if_neg hA, if_neg hB, Option.some.injEq] at this
            subst this
            exact ⟨rs[base + lim / 2].1, rs[base + lim / 2].2, by rw [hgeti], by omega,
              by omega⟩
          · have := step none h
            rw [if_neg hA, if_neg hB] at this
            exact Option.noConfusion this

/-- Soundness and completeness of `CharRanges.mtch` over a well-formed
range list: `some x` results contain the (folded) character at index `x`,
and a `none` result means no range contains it. -/
theorem mtch_spec (fold : Nat → Nat) (rs : List (Nat × Nat)) (ci : Bool)
    (c0 cc : Nat) (hwf : RangesWF rs)
    (hc : cc = if ci then fold c0 else c0) :
    (∀ x, CharRanges.mtch fold ⟨rs, ci⟩ c0 = some x → containsAt rs cc x) ∧
    (CharRanges.mtch fold ⟨rs, ci⟩ c0 = none → noContain rs cc) := by
  have hm : CharRanges.mtch fold ⟨rs, ci⟩ c0 =
      (match linScan rs cc 0 (min rs.length 4) with
       | some r => r
       | none => bsLoop rs cc 0 rs.length) := by
    rw [hc]
    rfl
  cases hls : linScan rs cc 0 (min rs.length 4) with
  | some r =>
    have hm2 : CharRanges.mtch fold ⟨rs, ci⟩ c0 = r := by rw [hm, hls]
    have hspec := linScan_spec rs cc hwf (min rs.length 4) 0 (by omega)
      (fun j hj lo hi _ => absurd hj (by omega))
    cases r with
    | none =>
      refine ⟨fun x h => ?_, fun _ => hspec.1 hls⟩
      rw [hm2] at h
      exact Option.noConfusion h
    | some y =>
      refine ⟨fun x h => ?_, fun h => ?_⟩
      · rw [hm2] at h
        have := Option.some.inj h
        subst this
        exact hspec.2.1 _ hls
      · rw [hm2] at h
        exact Option.noConfusion h
  | none =>
    have hm2 : CharRanges.mtch fold ⟨rs, ci⟩ c0 = bsLoop rs cc 0 rs.length := by
      rw [hm, hls]
    have hbs := bsLoop_spec rs cc hwf rs.length 0 (by omega)
      (fun j hj lo hi _ => absurd hj (by omega))
      (fun j hj lo hi hget => by
        have := lt_length_of_some hget
        omega)
    refine ⟨fun x h => hbs.1 x ?_, fun h => hbs.2 ?_⟩
    · rw [← hm2]; exact h
    · rw [← hm2]; exact h

/-- C5: over a sorted, non-overlapping range list, `matches(x)` returns
`Some i` iff the `i`-th range contains `x` after optional case folding, and
`None` iff no range contains the (possibly folded) character. -/
theorem claim5_ranges_matching (fold : Nat → Nat) (rs : List (Nat × Nat))
    (ci : Bool) (c0 : Nat) (hwf : RangesWF rs) :
    (∀ x, CharRanges.mtch fold ⟨rs, ci⟩ c0 = some x ↔
      (∃ lo hi, rs[x]? = some (lo, hi) ∧ lo ≤ (if ci then fold c0 else c0) ∧
        (if ci then fold c0 else c0) ≤ hi)) ∧
    (CharRanges.mtch fold ⟨rs, ci⟩ c0 = none ↔
      (∀ (j lo hi : Nat), rs[j]? = some (lo, hi) →
        (if ci then fold c0 else c0) < lo ∨ hi < (if ci then fold c0 else c0))) := by
  have hspec := mtch_spec fold rs ci c0 (if ci then fold c0 else c0) hwf rfl
  constructor
  · intro x
    constructor
    · exact hspec.1 x
    · intro hcont
      cases hm : CharRanges.mtch fold ⟨rs, ci⟩ c0 with
      | none =>
        obtain ⟨lo, hi, hget, h1, h2⟩ := hcont
        rcases hspec.2 hm x lo hi hget with h | h <;> omega
      | some y =>
        have := containsAt_unique rs (if ci then fold c0 else c0) hwf
          (hspec.1 y hm) hcont
        rw [this]
  · constructor
    · exact hspec.2
    · intro hnone
      cases hm : CharRanges.mtch fold ⟨rs, ci⟩ c0 with
      | none => rfl
      | some y =>
        obtain ⟨lo, hi, hget, h1, h2⟩ := hspec.1 y hm
        rcases hnone y lo hi hget with h | h <;> omega

/-- Witness for C5: the character 25 falls in the second of two concrete
sorted ranges, `matches` reports index 1. -/
theorem claim5_witness :
    CharRanges.mtch (fun x => x) ⟨[(5, 10), (20, 30)], false⟩ 25 = some 1 :=
  ((claim5_ranges_matching (fun x => x) [(5, 10), (20, 30)] false 25
      (by decide)).1 1).mpr ⟨20, 30, by decide, by decide, by decide⟩

/-! ### Compiler structural invariants

The master lemma below characterises one compiler call: on success it only
appends instructions (modulo back-patching inside the appended region), the
appended region contains no `Match`, carries only jump and split targets
bounded by the final length, and its `Save` slots occur in `2i`/`2i+1`
pairs; a `CompiledTooBig` error always carries the configured limit; and
(except for degenerate empty-alternation chains, which return without a
size check) success implies the final size check passed. -/

/-- The measure of every expression is positive. -/
theorem emeas_pos (e : Expr) : 1 ≤ emeas e := by
  cases e with
  | Repeat e r greedy => cases r <;> simp [emeas]
  | _ => simp [emeas] <;> omega

theorem okBind {α β : Type} (a : α) (f : α → Except Error β) :
    (Except.ok a : Except Error α) >>= f = f a := rfl

theorem errBind {α β : Type} (er : Error) (f : α → Except Error β) :
    (Except.error er : Except Error α) >>= f = .error er := rfl

/-- Jump and split targets of an instruction are bounded by `n`. -/
def targetsLe (n : Nat) : Inst → Prop
  | .Jump t => t ≤ n
  | .Split a b => a ≤ n ∧ b ≤ n
  | _ => True

theorem targetsLe_mono {n m : Nat} (h : n ≤ m) (i : Inst) (hi : targetsLe n i) :
    targetsLe m i := by
  cases i <;> simp [targetsLe] at hi ⊢ <;> omega

/-- No `Match` instruction occurs in the list. -/
def noMatchIn (d : List Inst) : Prop := ∀ i ∈ d, i ≠ Inst.Match

/-- Every `Save` slot in the list comes with both members of its
`(2i, 2i+1)` pair. -/
def savesPaired (d : List Inst) : Prop :=
  ∀ k : Nat, Inst.Save k ∈ d →
    Inst.Save (2 * (k / 2)) ∈ d ∧ Inst.Save (2 * (k / 2) + 1) ∈ d

/-- Invariant of the region appended by one compiler call, relative to the
length `n` of the whole instruction vector at return time. -/
def deltaOk (n : Nat) (d : List Inst) : Prop :=
  noMatchIn d ∧ (∀ i ∈ d, targetsLe n i) ∧ savesPaired d

/-- One compiler call turns `st` into `st2` by appending a well-behaved
region. -/
def emits (st st2 : CompState) : Prop :=
  ∃ d, st2.insts = st.insts ++ d ∧ deltaOk st2.insts.length d

theorem emits_refl (st : CompState) : emits st st :=
  ⟨[], by simp, fun i hi => absurd hi (List.not_mem_nil i),
    fun i hi => absurd hi (List.not_mem_nil i),
    fun k hk => absurd hk (List.not_mem_nil _)⟩

theorem emits_le {st st2 : CompState} (h : emits st st2) :
    st.insts.length ≤ st2.insts.length := by
  obtain ⟨d, hd, _⟩ := h
  rw [hd, List.length_append]
  omega

theorem emits_trans {st1 st2 st3 : CompState} (h1 : emits st1 st2)
    (h2 : emits st2 st3) : emits st1 st3 := by
  have hlen := emits_le h2
  obtain ⟨d1, hd1, hm1, ht1, hs1⟩ := h1
  obtain ⟨d2, hd2, hm2, ht2, hs2⟩ := h2
  refine ⟨d1 ++ d2, by rw [hd2, hd1, List.append_assoc], ?_, ?_, ?_⟩
  · intro i hi
    rcases List.mem_append.mp hi with h | h
    exacts [hm1 i h, hm2 i h]
  · intro i hi
    rcases List.mem_append.mp hi with h | h
    · exact targetsLe_mono hlen i (ht1 i h)
    · exact ht2 i h
  · intro k hk
    rcases List.mem_append.mp hk with h | h
    · obtain ⟨ha, hb⟩ := hs1 k h
      exact ⟨List.mem_append_left _ ha, List.mem_append_left _ hb⟩
    · obtain ⟨ha, hb⟩ := hs2 k h
      exact ⟨List.mem_append_right _ ha, List.mem_append_right _ hb⟩

/-- Pushing a single non-`Match`, non-`Save` instruction with bounded
targets is a well-behaved append. -/
theorem emits_push (st : CompState) (x : Inst) (hx : x ≠ .Match)
    (ht : targetsLe (st.insts.length + 1) x) (hs : ∀ k, x ≠ .Save k) :
    emits st (push st x) := by
  refine ⟨[x], rfl, ?_, ?_, ?_⟩
  · intro i hi
    rw [List.mem_singleton] at hi
    subst hi; exact hx
  · intro i hi
    have hlen : (push st x).insts.length = st.insts.length + 1 := by
      simp [push]
    rw [List.mem_singleton] at hi
    rw [hi, hlen]
    exact ht
  · intro k hk
    rw [List.mem_singleton] at hk
    exact absurd hk.symm (hs k)

/-- The literal loop only pushes `Char` instructions. -/
theorem emits_cLiteral (fold : Nat → Nat) (chars : List Nat) (casei : Bool) :
    ∀ st, emits st (cLiteral fold chars casei st) := by
  induction chars with
  | nil =>
    intro st
    simpa [cLiteral] using emits_refl st
  | cons ch rest ih =>
    intro st
    have h1 : cLiteral fold (ch :: rest) casei st =
        cLiteral fold rest casei
          (push st (.Char ⟨if casei then fold ch else ch, casei⟩)) := by
      simp [cLiteral]
    rw [h1]
    exact emits_trans
      (emits_push st _ (by simp) (by simp [targetsLe]) (by simp)) (ih _)

theorem set_append_len (l1 l2 : List Inst) (x y : Inst) :
    (l1 ++ x :: l2).set l1.length y = l1 ++ y :: l2 := by
  induction l1 with
  | nil => rfl
  | cons a t ih => simpa [List.set] using ih

theorem getElem?_append_len (l1 l2 : List Inst) (x : Inst) :
    (l1 ++ x :: l2)[l1.length]? = some x := by
  rw [List.getElem?_append_right (Nat.le_refl _)]
  simp

/-- Patching a `Split` sitting at a known position. -/
theorem setSplit_at {st : CompState} {l1 l2 : List Inst} {a b : Nat}
    (h : st.insts = l1 ++ .Split a b :: l2) (p q : Nat) :
    setSplit st l1.length p q = .ok ⟨l1 ++ .Split p q :: l2, st.capNames⟩ := by
  unfold setSplit
  rw [h, getElem?_append_len, set_append_len]

/-- Patching a `Jump` sitting at a known position. -/
theorem setJump_at {st : CompState} {l1 l2 : List Inst} {t : Nat}
    (h : st.insts = l1 ++ .Jump t :: l2) (p : Nat) :
    setJump st l1.length p = .ok ⟨l1 ++ .Jump p :: l2, st.capNames⟩ := by
  unfold setJump
  rw [h, getElem?_append_len, set_append_len]

theorem checkSize_ok {sl : Nat} {st st2 : CompState}
    (h : checkSize sl st = .ok st2) :
    st2 = st ∧ st.insts.length * instSize ≤ sl := by
  unfold checkSize at h
  split at h
  · exact Except.noConfusion h
  · next hcond => exact ⟨(Except.ok.inj h).symm, by omega⟩

theorem checkSize_error {sl : Nat} {st : CompState} {er : Error}
    (h : checkSize sl st = .error er) : er = .compiledTooBig sl := by
  unfold checkSize at h
  split at h
  · exact (Except.error.inj h).symm
  · exact Except.noConfusion h

/-- Chains of alternations that compile to nothing and return without a
final size check: `Alternate []`, `Alternate [Alternate []]`, and so on. -/
def emptyAltChain (e : Expr) : Bool :=
  match e with
  | .Alternate [] => true
  | .Alternate [e1] => emptyAltChain e1
  | _ => false
termination_by emeas e
decreasing_by
  simp only [emeas, emeasList]
  omega

mutual

/-- Does the expression contain a `Group` with a name but no capture index?
Compiling such a node panics (`i.expect` in the source); the parser never
produces one. -/
def badGroup : Expr → Bool
  | .Group _ none (some _) => true
  | .Group e _ _ => badGroup e
  | .Concat es => badGroupList es
  | .Alternate es => badGroupList es
  | .Repeat e _ _ => badGroup e
  | _ => false

/-- List version of `badGroup`. -/
def badGroupList : List Expr → Bool
  | [] => false
  | e :: rest => badGroup e || badGroupList rest

end

theorem badGroup_group_ns (e : Expr) (nm : String) :
    badGroup (.Group e none (some nm)) = true := by
  rw [badGroup]

theorem badGroup_eq_group_nn (e : Expr) :
    badGroup (.Group e none none) = badGroup e := by
  rw [badGroup]
  all_goals simp

theorem badGroup_eq_group_some (e : Expr) (i : Nat) (name : Option String) :
    badGroup (.Group e (some i) name) = badGroup e := by
  rw [badGroup]
  all_goals simp

theorem badGroup_eq_concat (es : List Expr) :
    badGroup (.Concat es) = badGroupList es := by
  rw [badGroup]
  all_goals simp

theorem badGroup_eq_alt (es : List Expr) :
    badGroup (.Alternate es) = badGroupList es := by
  rw [badGroup]
  all_goals simp

theorem badGroup_eq_repeat (e : Expr) (r : Repeater) (g : Bool) :
    badGroup (.Repeat e r g) = badGroup e := by
  rw [badGroup]
  all_goals simp

theorem badGroupList_mem {e2 : Expr} {es : List Expr} (h : e2 ∈ es)
    (hb : badGroup e2 = true) : badGroupList es = true := by
  induction es with
  | nil => exact absurd h (List.not_mem_nil e2)
  | cons e rest ih =>
    rw [badGroupList]
    rcases List.mem_cons.mp h with h | h
    · subst h; simp [hb]
    · simp [ih h]

/-- Constraint an error value puts on the call that produced it: a
`compiledTooBig` carries the configured limit, a panic is possible only
when the expression has a malformed group, and a syntax error never
arises in the compiler. -/
def errPost (sl : Nat) (b : Bool) : Error → Prop
  | .compiledTooBig l => l = sl
  | .bug => b = true
  | .syntaxErr => False

/-- Postcondition of one compiler call: on success, a well-behaved append
and (outside degenerate alternation chains) a passed size check; on error,
`errPost`. -/
def cPost (sl : Nat) (ch b : Bool) (st : CompState) :
    Except Error CompState → Prop
  | .ok st2 => emits st st2 ∧ (ch = false → st2.insts.length * instSize ≤ sl)
  | .error er => errPost sl b er

/-- Postcondition used for intermediate compiler calls inside a node. -/
def subPost (sl : Nat) (b : Bool) (st : CompState) :
    Except Error CompState → Prop
  | .ok st2 => emits st st2
  | .error er => errPost sl b er

theorem cPost_sub {sl : Nat} {ch b : Bool} {st : CompState}
    {r : Except Error CompState} (h : cPost sl ch b st r) : subPost sl b st r := by
  cases r with
  | ok st2 => exact h.1
  | error er => exact h

theorem errPost_mono {sl : Nat} {b1 b2 : Bool} {er : Error}
    (h : errPost sl b1 er) (himp : b1 = true → b2 = true) :
    errPost sl b2 er := by
  cases er with
  | compiledTooBig l => exact h
  | bug => exact himp h
  | syntaxErr => exact h

theorem cPost_error {sl : Nat} {ch b1 b2 : Bool} {st st1 : CompState}
    {er : Error} (h : subPost sl b1 st1 (.error er))
    (himp : b1 = true → b2 = true) :
    cPost sl ch b2 st (.error er) :=
  errPost_mono h himp

theorem cPost_mono_b {sl : Nat} {ch b1 b2 : Bool} {st : CompState}
    {r : Except Error CompState} (h : cPost sl ch b1 st r)
    (himp : b1 = true → b2 = true) : cPost sl ch b2 st r := by
  cases r with
  | ok st2 => exact h
  | error er => exact errPost_mono h himp

theorem subPost_error {sl : Nat} {b1 b2 : Bool} {st1 : CompState} {er : Error}
    (h : subPost sl b1 st1 (.error er)) (himp : b1 = true → b2 = true)
    (st2 : CompState) : subPost sl b2 st2 (.error er) :=
  errPost_mono h himp

theorem subPost_trans {sl : Nat} {b : Bool} {st st1 : CompState}
    {r : Except Error CompState} (h1 : emits st st1)
    (h2 : subPost sl b st1 r) : subPost sl b st r := by
  cases r with
  | ok st2 => exact emits_trans h1 h2
  | error er => exact h2

/-- Every case of the compiler that falls through to the trailing size check
satisfies the postcondition once the emitted region is well-behaved. -/
theorem cPost_checkSize {sl : Nat} {ch b : Bool} {st st1 : CompState}
    (hEm : emits st st1) : cPost sl ch b st (checkSize sl st1) := by
  cases hcs : checkSize sl st1 with
  | ok st2 =>
    obtain ⟨rfl, hb⟩ := checkSize_ok hcs
    exact ⟨hEm, fun _ => hb⟩
  | error er =>
    have := checkSize_error hcs
    subst this
    rfl

theorem subPost_ok {sl : Nat} {b : Bool} {st st2 : CompState}
    (h : subPost sl b st (.ok st2)) : emits st st2 := h

theorem emeas_mem : ∀ {e2 : Expr} {es : List Expr}, e2 ∈ es →
    emeas e2 ≤ emeasList es := by
  intro e2 es
  induction es with
  | nil => intro h; exact absurd h (List.not_mem_nil e2)
  | cons e rest ih =>
    intro h
    rcases List.mem_cons.mp h with h | h
    · subst h; simp only [emeasList]; omega
    · have := ih h; simp only [emeasList]; omega

theorem cList_post (sl : Nat) (fold : Nat → Nat) :
    ∀ (es : List Expr) (st : CompState),
      (∀ e2, e2 ∈ es → ∀ st1, subPost sl (badGroup e2) st1 (c sl fold e2 st1)) →
      subPost sl (badGroupList es) st (cList sl fold es st) := by
  intro es
  induction es with
  | nil =>
    intro st _
    simp only [cList]
    exact emits_refl st
  | cons e rest ih =>
    intro st h
    simp only [cList]
    cases hc : c sl fold e st with
    | error er =>
      simp only [hc, errBind]
      have h1 := h e (by simp) st
      rw [hc] at h1
      exact subPost_error h1 (fun hb => badGroupList_mem (by simp) hb) st
    | ok st1 =>
      simp only [hc, okBind]
      have h1 := h e (by simp) st
      rw [hc] at h1
      have h2 := ih st1 (fun e2 he2 => h e2 (by simp [he2]))
      cases hr : cList sl fold rest st1 with
      | ok st2 =>
        rw [hr] at h2
        exact subPost_trans h1 h2
      | error er =>
        rw [hr] at h2
        exact subPost_error h2
          (fun hb => by rw [badGroupList]; simp [hb]) st

theorem cTimes_post (sl : Nat) (fold : Nat → Nat) (e : Expr) (b : Bool)
    (h : ∀ st1, subPost sl b st1 (c sl fold e st1)) :
    ∀ (n : Nat) (st : CompState), subPost sl b st (cTimes sl fold n e st) := by
  intro n
  induction n with
  | zero =>
    intro st
    simp only [cTimes]
    exact emits_refl st
  | succ n ih =>
    intro st
    simp only [cTimes]
    cases hc : c sl fold e st with
    | error er =>
      simp only [hc, errBind]
      have h1 := h st
      rw [hc] at h1
      exact subPost_error h1 (fun hb => hb) st
    | ok st1 =>
      simp only [hc, okBind]
      have h1 := h st
      rw [hc] at h1
      exact subPost_trans h1 (ih st1)

theorem c_range_none (sl : Nat) (fold : Nat → Nat) (e : Expr) (mn : Nat)
    (greedy : Bool) (st : CompState) :
    c sl fold (.Repeat e (.Range mn none) greedy) st = (do
      let st1 ← cTimes sl fold mn e st
      let st2 ← c sl fold (.Repeat e .ZeroOrMore greedy) st1
      checkSize sl st2) := by
  simp only [c]

/-- Region shape `Split p q :: body` with both targets bounded. -/
theorem emits_split_body {st : CompState} {d1 : List Inst} (p q : Nat)
    (caps : List (Option String)) (hm : noMatchIn d1) (hs : savesPaired d1)
    (ht : ∀ i ∈ d1, targetsLe (st.insts.length + d1.length + 1) i)
    (hp : p ≤ st.insts.length + d1.length + 1)
    (hq : q ≤ st.insts.length + d1.length + 1) :
    emits st ⟨st.insts ++ .Split p q :: d1, caps⟩ := by
  have hL : (st.insts ++ Inst.Split p q :: d1).length
      = st.insts.length + d1.length + 1 := by
    rw [List.length_append, List.length_cons]
    omega
  refine ⟨.Split p q :: d1, rfl, ?_, ?_, ?_⟩
  · intro i hi
    rcases List.mem_cons.mp hi with h | h
    · subst h; simp
    · exact hm i h
  · intro i hi
    show targetsLe (st.insts ++ Inst.Split p q :: d1).length i
    rw [hL]
    rcases List.mem_cons.mp hi with h | h
    · subst h; exact ⟨hp, hq⟩
    · exact ht i h
  · intro k hk
    rcases List.mem_cons.mp hk with h | h
    · exact absurd h (by simp)
    · obtain ⟨ha, hb⟩ := hs k h
      exact ⟨List.mem_cons_of_mem _ ha, List.mem_cons_of_mem _ hb⟩

/-- Region shape `body ++ [Split p q]` with both targets bounded. -/
theorem emits_body_split {st : CompState} {d1 : List Inst} (p q : Nat)
    (caps : List (Option String)) (hm : noMatchIn d1) (hs : savesPaired d1)
    (ht : ∀ i ∈ d1, targetsLe (st.insts.length + d1.length + 1) i)
    (hp : p ≤ st.insts.length + d1.length + 1)
    (hq : q ≤ st.insts.length + d1.length + 1) :
    emits st ⟨st.insts ++ d1 ++ [.Split p q], caps⟩ := by
  have hL : (st.insts ++ d1 ++ [Inst.Split p q]).length
      = st.insts.length + d1.length + 1 := by
    simp only [List.length_append, List.length_cons, List.length_nil]
  refine ⟨d1 ++ [.Split p q], by simp, ?_, ?_, ?_⟩
  · intro i hi
    rcases List.mem_append.mp hi with h | h
    · exact hm i h
    · rw [List.mem_singleton] at h; subst h; simp
  · intro i hi
    show targetsLe (st.insts ++ d1 ++ [Inst.Split p q]).length i
    rw [hL]
    rcases List.mem_append.mp hi with h | h
    · exact ht i h
    · rw [List.mem_singleton] at h; subst h; exact ⟨hp, hq⟩
  · intro k hk
    rcases List.mem_append.mp hk with h | h
    · obtain ⟨ha, hb⟩ := hs k h
      exact ⟨List.mem_append_left _ ha, List.mem_append_left _ hb⟩
    · rw [List.mem_singleton] at h; exact absurd h (by simp)

/-- Region shape `Split p q :: (d1 ++ Jump t :: d2)` with all three targets
bounded. -/
theorem emits_wired {st : CompState} {d1 d2 : List Inst} (p q t : Nat)
    (caps : List (Option String))
    (hm1 : noMatchIn d1) (hm2 : noMatchIn d2)
    (hs1 : savesPaired d1) (hs2 : savesPaired d2)
    (ht1 : ∀ i ∈ d1, targetsLe (st.insts.length + d1.length + d2.length + 2) i)
    (ht2 : ∀ i ∈ d2, targetsLe (st.insts.length + d1.length + d2.length + 2) i)
    (hp : p ≤ st.insts.length + d1.length + d2.length + 2)
    (hq : q ≤ st.insts.length + d1.length + d2.length + 2)
    (htt : t ≤ st.insts.length + d1.length + d2.length + 2) :
    emits st ⟨st.insts ++ .Split p q :: (d1 ++ .Jump t :: d2), caps⟩ := by
  have hL : (st.insts ++ Inst.Split p q :: (d1 ++ Inst.Jump t :: d2)).length
      = st.insts.length + d1.length + d2.length + 2 := by
    simp only [List.length_append, List.length_cons]
    omega
  refine ⟨.Split p q :: (d1 ++ .Jump t :: d2), rfl, ?_, ?_, ?_⟩
  · intro i hi
    rcases List.mem_cons.mp hi with h | h
    · subst h; simp
    · rcases List.mem_append.mp h with h | h
      · exact hm1 i h
      · rcases List.mem_cons.mp h with h | h
        · subst h; simp
        · exact hm2 i h
  · intro i hi
    show targetsLe (st.insts ++ Inst.Split p q :: (d1 ++ Inst.Jump t :: d2)).length i
    rw [hL]
    rcases List.mem_cons.mp hi with h | h
    · subst h; exact ⟨hp, hq⟩
    · rcases List.mem_append.mp h with h | h
      · exact ht1 i h
      · rcases List.mem_cons.mp h with h | h
        · subst h; exact htt
        · exact ht2 i h
  · intro k hk
    have mem1 : ∀ x : Inst, x ∈ d1 →
        x ∈ Inst.Split p q :: (d1 ++ Inst.Jump t :: d2) := by
      intro x hx
      exact List.mem_cons_of_mem _ (List.mem_append_left _ hx)
    have mem2 : ∀ x : Inst, x ∈ d2 →
        x ∈ Inst.Split p q :: (d1 ++ Inst.Jump t :: d2) := by
      intro x hx
      exact List.mem_cons_of_mem _
        (List.mem_append_right _ (List.mem_cons_of_mem _ hx))
    rcases List.mem_cons.mp hk with h | h
    · exact absurd h (by simp)
    · rcases List.mem_append.mp h with h | h
      · obtain ⟨ha, hb⟩ := hs1 k h
        exact ⟨mem1 _ ha, mem1 _ hb⟩
      · rcases List.mem_cons.mp h with h | h
        · exact absurd h (by simp)
        · obtain ⟨ha, hb⟩ := hs2 k h
          exact ⟨mem2 _ ha, mem2 _ hb⟩

/-- The whole `Group` capture emission, `Save(2i)`, body, `Save(2i+1)`,
is a well-behaved append even though neither `Save` is on its own. -/
theorem emits_save_pair {st st1 : CompState} (i : Nat) (name : Option String)
    (h : emits (push ⟨st.insts, st.capNames ++ [name]⟩ (.Save (2 * i))) st1) :
    emits st (push st1 (.Save (2 * i + 1))) := by
  obtain ⟨d, hd, hm, ht, hs⟩ := h
  have hd' : st1.insts = st.insts ++ .Save (2 * i) :: d := by
    rw [hd]; simp [push]
  have hLfin : (push st1 (.Save (2 * i + 1))).insts.length
      = st1.insts.length + 1 := by simp [push]
  have hmem : ∀ x : Inst, x ∈ (Inst.Save (2 * i) :: d) ++ [Inst.Save (2 * i + 1)] ↔
      (x = .Save (2 * i) ∨ x ∈ d ∨ x = .Save (2 * i + 1)) := by
    intro x
    simp [List.mem_append, List.mem_cons, or_assoc]
  refine ⟨(.Save (2 * i) :: d) ++ [.Save (2 * i + 1)], ?_, ?_, ?_, ?_⟩
  · have hp : (push st1 (Inst.Save (2 * i + 1))).insts
      = st1.insts ++ [Inst.Save (2 * i + 1)] := rfl
    rw [hp, hd']
    simp
  · intro x hx
    rcases (hmem x).mp hx with h | h | h
    · subst h; simp
    · exact hm x h
    · subst h; simp
  · intro x hx
    rw [hLfin]
    rcases (hmem x).mp hx with h | h | h
    · subst h; trivial
    · exact targetsLe_mono (by omega) x (ht x h)
    · subst h; trivial
  · intro k hk
    have h2i : 2 * ((2 * i) / 2) = 2 * i := by omega
    have h2i1 : 2 * ((2 * i + 1) / 2) = 2 * i := by omega
    have hhead : Inst.Save (2 * i) ∈ (Inst.Save (2 * i) :: d) ++ [Inst.Save (2 * i + 1)] := by
      simp
    have hlast : Inst.Save (2 * i + 1) ∈ (Inst.Save (2 * i) :: d) ++ [Inst.Save (2 * i + 1)] := by
      simp
    rcases (hmem _).mp hk with h | h | h
    · have hk2 : k = 2 * i := Inst.Save.inj h
      subst hk2
      constructor
      · rw [h2i]; exact hhead
      · rw [h2i]; exact hlast
    · obtain ⟨ha, hb⟩ := hs k h
      exact ⟨(hmem _).mpr (Or.inr (Or.inl ha)), (hmem _).mpr (Or.inr (Or.inl hb))⟩
    · have hk2 : k = 2 * i + 1 := Inst.Save.inj h
      subst hk2
      constructor
      · rw [h2i1]; exact hhead
      · rw [h2i1]; exact hlast



theorem push_insts (st : CompState) (x : Inst) :
    (push st x).insts = st.insts ++ [x] := rfl

theorem emits_congr {st S T : CompState} (h : emits st T) (hST : S = T) :
    emits st S := hST ▸ h

/-- Master characterisation of one compiler call, by strong induction on the
termination measure. -/
theorem c_master (sl : Nat) (fold : Nat → Nat) :
    ∀ (N : Nat) (e : Expr), emeas e ≤ N → ∀ st : CompState,
      cPost sl (emptyAltChain e) (badGroup e) st (c sl fold e st) := by
  intro N
  induction N with
  | zero =>
    intro e he
    exact absurd he (by have := emeas_pos e; omega)
  | succ N ih =>
    intro e he st
    have ihs : ∀ e2, emeas e2 ≤ N → ∀ st1,
        subPost sl (badGroup e2) st1 (c sl fold e2 st1) :=
      fun e2 h2 st1 => cPost_sub (ih e2 h2 st1)
    cases e with
    | Empty =>
      simp only [c]
      exact cPost_checkSize (emits_refl st)
    | Literal chars casei =>
      simp only [c]
      exact cPost_checkSize (emits_cLiteral fold chars casei st)
    | AnyChar =>
      simp only [c]
      exact cPost_checkSize
        (emits_push st _ (by simp) (by trivial) (by simp))
    | AnyCharNoNL =>
      simp only [c]
      exact cPost_checkSize
        (emits_push st _ (by simp) (by trivial) (by simp))
    | Class ranges casei =>
      rcases ranges with _ | ⟨⟨rs1, re1⟩, _ | ⟨r2, tail⟩⟩
      · simp only [c]
        exact cPost_checkSize (emits_push st _ (by simp) (by trivial) (by simp))
      · simp only [c]
        split
        · exact cPost_checkSize
            (emits_push st _ (by simp) (by trivial) (by simp))
        · exact cPost_checkSize
            (emits_push st _ (by simp) (by trivial) (by simp))
      · simp only [c]
        exact cPost_checkSize (emits_push st _ (by simp) (by trivial) (by simp))
    | StartLine =>
      simp only [c]
      exact cPost_checkSize (emits_push st _ (by simp) (by trivial) (by simp))
    | EndLine =>
      simp only [c]
      exact cPost_checkSize (emits_push st _ (by simp) (by trivial) (by simp))
    | StartText =>
      simp only [c]
      exact cPost_checkSize (emits_push st _ (by simp) (by trivial) (by simp))
    | EndText =>
      simp only [c]
      exact cPost_checkSize (emits_push st _ (by simp) (by trivial) (by simp))
    | WordBoundary =>
      simp only [c]
      exact cPost_checkSize (emits_push st _ (by simp) (by trivial) (by simp))
    | NotWordBoundary =>
      simp only [c]
      exact cPost_checkSize (emits_push st _ (by simp) (by trivial) (by simp))
    | Group e1 iopt name =>
      have hm1 : emeas e1 ≤ N := by
        simp only [emeas] at he
        omega
      cases iopt with
      | none =>
        cases name with
        | none =>
          simp only [c]
          cases hc : c sl fold e1 st with
          | error er =>
            simp only [hc, errBind]
            exact cPost_error (by
              have h1 := ihs e1 hm1 st
              rw [hc] at h1
              exact h1) (fun hb => by rw [badGroup_eq_group_nn]; exact hb)
          | ok s1 =>
            simp only [hc, okBind]
            have h1 := ihs e1 hm1 st
            rw [hc] at h1
            exact cPost_checkSize h1
        | some nm =>
          simp only [c]
          show badGroup (Expr.Group e1 none (some nm)) = true
          exact badGroup_group_ns e1 nm
      | some i =>
        simp only [c]
        cases hc : c sl fold e1 (push ⟨st.insts, st.capNames ++ [name]⟩ (.Save (2 * i))) with
        | error er =>
          simp only [hc, errBind]
          exact cPost_error (by
            have h1 := ihs e1 hm1 (push ⟨st.insts, st.capNames ++ [name]⟩ (.Save (2 * i)))
            rw [hc] at h1
            exact h1) (fun hb => by rw [badGroup_eq_group_some]; exact hb)
        | ok s1 =>
          simp only [hc, okBind]
          have h1 := ihs e1 hm1 (push ⟨st.insts, st.capNames ++ [name]⟩ (.Save (2 * i)))
          rw [hc] at h1
          exact cPost_checkSize (emits_save_pair i name h1)
    | Concat es =>
      have hms : ∀ e2, e2 ∈ es → emeas e2 ≤ N := by
        intro e2 he2
        have := emeas_mem he2
        simp only [emeas] at he
        omega
      simp only [c]
      cases hc : cList sl fold es st with
      | error er =>
        simp only [hc, errBind]
        refine cPost_error
          (show subPost sl (badGroupList es) st (.error er) from ?_)
          (fun hb => by rw [badGroup_eq_concat]; exact hb)
        have h1 := cList_post sl fold es st (fun e2 he2 st1 => ihs e2 (hms e2 he2) st1)
        rw [hc] at h1
        exact h1
      | ok s1 =>
        simp only [hc, okBind]
        have h1 := cList_post sl fold es st (fun e2 he2 st1 => ihs e2 (hms e2 he2) st1)
        rw [hc] at h1
        exact cPost_checkSize h1
    | Alternate es =>
      cases es with
      | nil =>
        simp only [c]
        refine ⟨emits_refl st, fun hch => ?_⟩
        have htr : emptyAltChain (Expr.Alternate []) = true := by
          rw [emptyAltChain]
        rw [htr] at hch
        exact absurd hch (by decide)
      | cons e1 tail =>
        cases tail with
        | nil =>
          have hm1 : emeas e1 ≤ N := by
            simp only [emeas, emeasList] at he
            omega
          have heq : emptyAltChain (.Alternate [e1]) = emptyAltChain e1 := by
            rw [emptyAltChain]
          simp only [c]
          rw [heq]
          exact cPost_mono_b (ih e1 hm1 st)
            (fun hb => by rw [badGroup_eq_alt]; exact badGroupList_mem (by simp) hb)
        | cons e2 rest =>
          have hm1 : emeas e1 ≤ N := by
            have := emeas_pos e2
            simp only [emeas, emeasList] at he
            omega
          have hm2 : emeas (.Alternate (e2 :: rest)) ≤ N := by
            have := emeas_pos e1
            simp only [emeas, emeasList] at he ⊢
            omega
          simp only [c, emptySplit, emptyJump]
          cases hc1 : c sl fold e1 (push st (.Split 0 0)) with
          | error er =>
            simp only [hc1, errBind]
            exact cPost_error (by
              have h1 := ihs e1 hm1 (push st (.Split 0 0))
              rw [hc1] at h1
              exact h1)
              (fun hb => by rw [badGroup_eq_alt]; exact badGroupList_mem (by simp) hb)
          | ok s1 =>
            simp only [hc1, okBind]
            have he1 : emits (push st (.Split 0 0)) s1 := by
              have h1 := ihs e1 hm1 (push st (.Split 0 0))
              rw [hc1] at h1
              exact h1
            cases hc2 : c sl fold (.Alternate (e2 :: rest)) (push s1 (.Jump 0)) with
            | error er =>
              simp only [hc2, errBind]
              exact cPost_error (by
                have h1 := ihs (.Alternate (e2 :: rest)) hm2 (push s1 (.Jump 0))
                rw [hc2] at h1
                exact h1)
                (fun hb => by
                  rw [badGroup_eq_alt] at hb ⊢
                  rw [badGroupList]
                  simp [hb])
            | ok s2 =>
              simp only [hc2, okBind]
              have he2 : emits (push s1 (.Jump 0)) s2 := by
                have h1 := ihs (.Alternate (e2 :: rest)) hm2 (push s1 (.Jump 0))
                rw [hc2] at h1
                exact h1
              obtain ⟨d1, hd1, hm1d, ht1, hs1d⟩ := he1
              obtain ⟨d2, hd2, hm2d, ht2, hs2d⟩ := he2
              have hs1i : s1.insts = st.insts ++ .Split 0 0 :: d1 := by
                rw [hd1]; simp [push]
              have hs2i : s2.insts = st.insts ++ .Split 0 0 :: (d1 ++ .Jump 0 :: d2) := by
                rw [hd2, push_insts, hs1i]
                simp
              have hlen1 : s1.insts.length = st.insts.length + d1.length + 1 := by
                rw [hs1i]; simp [List.length_append]; try omega
              have hlen2 : s2.insts.length
                  = st.insts.length + d1.length + d2.length + 2 := by
                rw [hs2i]; simp; omega
              have hq1 : (push st (.Split 0 0)).insts.length = st.insts.length + 1 := by
                simp [push]
              have hq2 : (push s1 (.Jump 0)).insts.length = s1.insts.length + 1 := by
                simp [push]
              rw [setSplit_at hs2i, okBind]
              have hidx : s1.insts.length
                  = (st.insts ++ .Split (push st (.Split 0 0)).insts.length
                      (push s1 (.Jump 0)).insts.length :: d1).length := by
                rw [hlen1]; simp; omega
              rw [hidx]
              have hdec : (⟨st.insts ++ .Split (push st (.Split 0 0)).insts.length
                    (push s1 (.Jump 0)).insts.length :: (d1 ++ .Jump 0 :: d2),
                    s2.capNames⟩ : CompState).insts
                  = (st.insts ++ .Split (push st (.Split 0 0)).insts.length
                      (push s1 (.Jump 0)).insts.length :: d1) ++ .Jump 0 :: d2 := by
                simp
              rw [setJump_at hdec, okBind]
              refine cPost_checkSize (emits_congr
                (emits_wired (push st (.Split 0 0)).insts.length
                  (push s1 (.Jump 0)).insts.length s2.insts.length
                  s2.capNames hm1d hm2d hs1d hs2d ?_ ?_ ?_ ?_ ?_) (by simp))
              · intro i hi
                exact targetsLe_mono (by omega) i (ht1 i hi)
              · intro i hi
                exact targetsLe_mono (by omega) i (ht2 i hi)
              · rw [hq1]; omega
              · rw [hq2]; omega
              · omega
    | Repeat e1 r greedy =>
      cases r with
      | ZeroOrOne =>
        have hm1 : emeas e1 ≤ N := by
          simp only [emeas] at he
          omega
        simp only [c, emptySplit]
        cases hc1 : c sl fold e1 (push st (.Split 0 0)) with
        | error er =>
          simp only [hc1, errBind]
          exact cPost_error (by
            have h1 := ihs e1 hm1 (push st (.Split 0 0))
            rw [hc1] at h1
            exact h1) (fun hb => by rw [badGroup_eq_repeat]; exact hb)
        | ok s1 =>
          simp only [hc1, okBind]
          have he1 : emits (push st (.Split 0 0)) s1 := by
            have h1 := ihs e1 hm1 (push st (.Split 0 0))
            rw [hc1] at h1
            exact h1
          obtain ⟨d1, hd1, hm1d, ht1, hs1d⟩ := he1
          have hs1i : s1.insts = st.insts ++ .Split 0 0 :: d1 := by
            rw [hd1]; simp [push]
          have hlen1 : s1.insts.length = st.insts.length + d1.length + 1 := by
            rw [hs1i]; simp [List.length_append]; try omega
          have hq1 : (push st (.Split 0 0)).insts.length = st.insts.length + 1 := by
            simp [push]
          have hT : ∀ i ∈ d1, targetsLe (st.insts.length + d1.length + 1) i := by
            intro i hi
            exact targetsLe_mono (by omega) i (ht1 i hi)
          cases greedy with
          | false =>
            rw [if_neg Bool.false_ne_true, setSplit_at hs1i, okBind]
            exact cPost_checkSize
              (emits_split_body _ _ _ hm1d hs1d hT (by omega) (by rw [hq1]; omega))
          | true =>
            rw [if_pos rfl, setSplit_at hs1i, okBind]
            exact cPost_checkSize
              (emits_split_body _ _ _ hm1d hs1d hT (by rw [hq1]; omega) (by omega))
      | OneOrMore =>
        have hm1 : emeas e1 ≤ N := by
          simp only [emeas] at he
          omega
        simp only [c, emptySplit]
        cases hc1 : c sl fold e1 st with
        | error er =>
          simp only [hc1, errBind]
          exact cPost_error (by
            have h1 := ihs e1 hm1 st
            rw [hc1] at h1
            exact h1) (fun hb => by rw [badGroup_eq_repeat]; exact hb)
        | ok s1 =>
          simp only [hc1, okBind]
          have he1 : emits st s1 := by
            have h1 := ihs e1 hm1 st
            rw [hc1] at h1
            exact h1
          obtain ⟨d1, hd1, hm1d, ht1, hs1d⟩ := he1
          have hlen1 : s1.insts.length = st.insts.length + d1.length := by
            rw [hd1]; simp
          have hdec : (push s1 (.Split 0 0)).insts = s1.insts ++ .Split 0 0 :: [] := by
            simp [push]
          have hq2 : (push s1 (.Split 0 0)).insts.length = s1.insts.length + 1 := by
            simp [push]
          have hT : ∀ i ∈ d1, targetsLe (st.insts.length + d1.length + 1) i := by
            intro i hi
            exact targetsLe_mono (by omega) i (ht1 i hi)
          cases greedy with
          | false =>
            rw [if_neg Bool.false_ne_true, setSplit_at hdec, okBind]
            exact cPost_checkSize (emits_congr
              (emits_body_split (push s1 (.Split 0 0)).insts.length st.insts.length
                (push s1 (.Split 0 0)).capNames hm1d hs1d hT
                (by simp only [hq2, hlen1]; omega) (by omega)) (by rw [hd1]; try simp))
          | true =>
            rw [if_pos rfl, setSplit_at hdec, okBind]
            exact cPost_checkSize (emits_congr
              (emits_body_split st.insts.length (push s1 (.Split 0 0)).insts.length
                (push s1 (.Split 0 0)).capNames hm1d hs1d hT
                (by omega) (by simp only [hq2, hlen1]; omega)) (by rw [hd1]; try simp))
      | ZeroOrMore =>
        have hm1 : emeas e1 ≤ N := by
          simp only [emeas] at he
          omega
        simp only [c, emptySplit, emptyJump]
        cases hc1 : c sl fold e1 (push st (.Split 0 0)) with
        | error er =>
          simp only [hc1, errBind]
          exact cPost_error (by
            have h1 := ihs e1 hm1 (push st (.Split 0 0))
            rw [hc1] at h1
            exact h1) (fun hb => by rw [badGroup_eq_repeat]; exact hb)
        | ok s1 =>
          simp only [hc1, okBind]
          have he1 : emits (push st (.Split 0 0)) s1 := by
            have h1 := ihs e1 hm1 (push st (.Split 0 0))
            rw [hc1] at h1
            exact h1
          obtain ⟨d1, hd1, hm1d, ht1, hs1d⟩ := he1
          have hs1i : s1.insts = st.insts ++ .Split 0 0 :: d1 := by
            rw [hd1]; simp [push]
          have hlen1 : s1.insts.length = st.insts.length + d1.length + 1 := by
            rw [hs1i]; simp [List.length_append]; try omega
          have hdec : (push s1 (.Jump 0)).insts
              = (st.insts ++ .Split 0 0 :: d1) ++ .Jump 0 :: [] := by
            rw [push_insts, hs1i]
            try simp
          have hidx : s1.insts.length = (st.insts ++ .Split 0 0 :: d1).length := by
            rw [hs1i]
          rw [hidx, setJump_at hdec, okBind]
          have hdec2 : (⟨(st.insts ++ .Split 0 0 :: d1) ++ .Jump st.insts.length :: [],
                (push s1 (.Jump 0)).capNames⟩ : CompState).insts
              = st.insts ++ .Split 0 0 :: (d1 ++ .Jump st.insts.length :: []) := by
            simp
          have hq1 : (push st (.Split 0 0)).insts.length = st.insts.length + 1 := by
            simp [push]
          have hq2 : (push s1 (.Jump 0)).insts.length = s1.insts.length + 1 := by
            simp [push]
          have hT : ∀ i ∈ d1,
              targetsLe (st.insts.length + d1.length + List.length ([] : List Inst) + 2) i := by
            intro i hi
            exact targetsLe_mono (by simp only [hlen1, List.length_nil]; omega) i (ht1 i hi)
          cases greedy with
          | false =>
            rw [if_neg Bool.false_ne_true, setSplit_at hdec2, okBind]
            exact cPost_checkSize (emits_congr
              (emits_wired (push s1 (.Jump 0)).insts.length
                (push st (.Split 0 0)).insts.length st.insts.length
                (⟨(st.insts ++ .Split 0 0 :: d1) ++ .Jump st.insts.length :: [],
                  (push s1 (.Jump 0)).capNames⟩ : CompState).capNames
                hm1d (fun i hi => absurd hi (List.not_mem_nil i))
                hs1d (fun k hk => absurd hk (List.not_mem_nil _))
                hT (fun i hi => absurd hi (List.not_mem_nil i))
                (by simp only [hq2, hlen1, List.length_nil]; omega)
                (by simp only [hq1, List.length_nil]; omega)
                (by simp only [List.length_nil]; omega)) (by simp))
          | true =>
            rw [if_pos rfl, setSplit_at hdec2, okBind]
            exact cPost_checkSize (emits_congr
              (emits_wired (push st (.Split 0 0)).insts.length
                (push s1 (.Jump 0)).insts.length st.insts.length
                (⟨(st.insts ++ .Split 0 0 :: d1) ++ .Jump st.insts.length :: [],
                  (push s1 (.Jump 0)).capNames⟩ : CompState).capNames
                hm1d (fun i hi => absurd hi (List.not_mem_nil i))
                hs1d (fun k hk => absurd hk (List.not_mem_nil _))
                hT (fun i hi => absurd hi (List.not_mem_nil i))
                (by simp only [hq1, List.length_nil]; omega)
                (by simp only [hq2, hlen1, List.length_nil]; omega)
                (by simp only [List.length_nil]; omega)) (by simp))
      | Range mn mx =>
        have hm1 : emeas e1 ≤ N := by
          simp only [emeas] at he
          omega
        have hsub1 : ∀ st1, subPost sl (badGroup e1) st1 (c sl fold e1 st1) :=
          fun st1 => ihs e1 hm1 st1
        cases mx with
        | none =>
          have hmz : emeas (.Repeat e1 .ZeroOrMore greedy) ≤ N := by
            simp only [emeas] at he ⊢
            omega
          rw [c_range_none]
          cases hct : cTimes sl fold mn e1 st with
          | error er =>
            simp only [hct, errBind]
            refine cPost_error
              (show subPost sl (badGroup e1) st (.error er) from ?_)
              (fun hb => by rw [badGroup_eq_repeat]; exact hb)
            have h1 := cTimes_post sl fold e1 (badGroup e1) hsub1 mn st
            rw [hct] at h1
            exact h1
          | ok s1 =>
            simp only [hct, okBind]
            have he1 : emits st s1 := by
              have h1 := cTimes_post sl fold e1 (badGroup e1) hsub1 mn st
              rw [hct] at h1
              exact h1
            cases hcz : c sl fold (.Repeat e1 .ZeroOrMore greedy) s1 with
            | error er =>
              simp only [hcz, errBind]
              exact cPost_error (by
                have h1 := ihs (.Repeat e1 .ZeroOrMore greedy) hmz s1
                rw [hcz] at h1
                exact h1) (fun hb => by rw [badGroup_eq_repeat]; exact hb)
            | ok s2 =>
              simp only [hcz, okBind]
              have h1 := ihs (.Repeat e1 .ZeroOrMore greedy) hmz s1
              rw [hcz] at h1
              exact cPost_checkSize (emits_trans he1 h1)
        | some mx =>
          have hmz : emeas (.Repeat e1 .ZeroOrOne greedy) ≤ N := by
            simp only [emeas] at he ⊢
            omega
          have hsubz : ∀ st1, subPost sl (badGroup (.Repeat e1 .ZeroOrOne greedy)) st1
              (c sl fold (.Repeat e1 .ZeroOrOne greedy) st1) :=
            fun st1 => ihs (.Repeat e1 .ZeroOrOne greedy) hmz st1
          simp only [c]
          cases hct : cTimes sl fold mn e1 st with
          | error er =>
            simp only [hct, errBind]
            refine cPost_error
              (show subPost sl (badGroup e1) st (.error er) from ?_)
              (fun hb => by rw [badGroup_eq_repeat]; exact hb)
            have h1 := cTimes_post sl fold e1 (badGroup e1) hsub1 mn st
            rw [hct] at h1
            exact h1
          | ok s1 =>
            simp only [hct, okBind]
            have he1 : emits st s1 := by
              have h1 := cTimes_post sl fold e1 (badGroup e1) hsub1 mn st
              rw [hct] at h1
              exact h1
            cases hct2 : cTimes sl fold (mx - mn) (.Repeat e1 .ZeroOrOne greedy) s1 with
            | error er =>
              simp only [hct2, errBind]
              refine cPost_error
                (show subPost sl (badGroup (.Repeat e1 .ZeroOrOne greedy)) s1
                  (.error er) from ?_)
                (fun hb => by
                  rw [badGroup_eq_repeat] at hb ⊢
                  exact hb)
              have h1 := cTimes_post sl fold (.Repeat e1 .ZeroOrOne greedy)
                (badGroup (.Repeat e1 .ZeroOrOne greedy)) hsubz (mx - mn) s1
              rw [hct2] at h1
              exact h1
            | ok s2 =>
              simp only [hct2, okBind]
              have h1 := cTimes_post sl fold (.Repeat e1 .ZeroOrOne greedy)
                (badGroup (.Repeat e1 .ZeroOrOne greedy)) hsubz (mx - mn) s1
              rw [hct2] at h1
              exact cPost_checkSize (emits_trans he1 h1)

/-! ### Claims about the compiler: C1, C6, C7, C10 -/

/-- Catch-all evaluation of `emptyAltChain` at a literal node. -/
theorem emptyAltChain_lit (chars : List Nat) (ci : Bool) :
    emptyAltChain (.Literal chars ci) = false := by
  rw [emptyAltChain]
  all_goals simp

/-- Catch-all evaluation of `badGroup` at a literal node. -/
theorem badGroup_lit (chars : List Nat) (ci : Bool) :
    badGroup (.Literal chars ci) = false := by
  rw [badGroup]
  all_goals simp

/-- Decomposition of every successful compilation: `Save(0)`, a
well-behaved body region, `Save(1)`, `Match`. -/
theorem compile_decomp {sl : Nat} {fold : Nat → Nat} {e : Expr}
    {insts : List Inst} {names : List (Option String)}
    (h : compile sl fold e = .ok (insts, names)) :
    ∃ d, insts = .Save 0 :: (d ++ [.Save 1, .Match]) ∧ noMatchIn d ∧
      (∀ i ∈ d, targetsLe (d.length + 1) i) ∧ savesPaired d := by
  unfold compile at h
  cases hc : c sl fold e ⟨[.Save 0], [none]⟩ with
  | error er => rw [hc] at h; exact Except.noConfusion h
  | ok st =>
    rw [hc] at h
    have hm := c_master sl fold (emeas e) e (Nat.le_refl _) ⟨[.Save 0], [none]⟩
    rw [hc] at hm
    obtain ⟨⟨d, hd, hnm, ht, hs⟩, -⟩ := hm
    have hlen : st.insts.length = d.length + 1 := by
      rw [hd]; simp
    injection h with h1
    injection h1 with ha hb
    refine ⟨d, ?_, hnm, ?_, hs⟩
    · rw [← ha, hd]
      simp
    · intro i hi
      have := ht i hi
      rw [hlen] at this
      exact this

/-- C1: every successful compilation yields `Save(0)` first, `Save(1)` and
`Match` as the final two instructions, exactly one `Match`, and every
`Jump`/`Split` target in bounds. -/
theorem claim1_compiled_invariants (sl : Nat) (fold : Nat → Nat) (e : Expr)
    (insts : List Inst) (names : List (Option String))
    (h : compile sl fold e = .ok (insts, names)) :
    insts[0]? = some (.Save 0) ∧
    insts[insts.length - 2]? = some (.Save 1) ∧
    insts[insts.length - 1]? = some .Match ∧
    insts.countP (fun i => decide (i = Inst.Match)) = 1 ∧
    (∀ i ∈ insts, (∀ t, i = .Jump t → t < insts.length) ∧
      (∀ a b, i = .Split a b → a < insts.length ∧ b < insts.length)) := by
  obtain ⟨d, hins, hnm, ht, hs⟩ := compile_decomp h
  subst hins
  have hlen : (Inst.Save 0 :: (d ++ [Inst.Save 1, Inst.Match])).length
      = d.length + 3 := by simp
  refine ⟨by simp, ?_, ?_, ?_, ?_⟩
  · rw [hlen]
    have hidx : d.length + 3 - 2 = d.length + 1 := by omega
    rw [hidx, List.getElem?_cons_succ, List.getElem?_append_right (Nat.le_refl _)]
    simp
  · rw [hlen]
    have hidx : d.length + 3 - 1 = d.length + 1 + 1 := by omega
    rw [hidx, List.getElem?_cons_succ, List.getElem?_append_right (by omega)]
    have hidx2 : d.length + 1 - d.length = 1 := by omega
    rw [hidx2]
    rfl
  · rw [List.countP_cons, List.countP_append]
    have h0 : List.countP (fun i => decide (i = Inst.Match)) d = 0 := by
      rw [List.countP_eq_zero]
      intro a ha
      simp [hnm a ha]
    rw [h0]
    rfl
  · intro i hi
    rw [hlen]
    rcases List.mem_cons.mp hi with hcase | hcase
    · subst hcase
      exact ⟨fun t ht2 => Inst.noConfusion ht2, fun a b hab => Inst.noConfusion hab⟩
    rcases List.mem_append.mp hcase with hcase | hcase
    · have htl := ht i hcase
      cases i with
      | Jump t =>
        refine ⟨fun t2 ht2 => ?_, fun a b hab => Inst.noConfusion hab⟩
        have : t = t2 := Inst.Jump.inj ht2
        subst this
        have : t ≤ d.length + 1 := htl
        omega
      | Split a b =>
        refine ⟨fun t2 ht2 => Inst.noConfusion ht2, fun a2 b2 hab => ?_⟩
        obtain ⟨ha2, hb2⟩ := Inst.Split.inj hab
        subst ha2
        subst hb2
        obtain ⟨ha3, hb3⟩ := htl
        exact ⟨by omega, by omega⟩
      | _ =>
        exact ⟨fun t ht2 => Inst.noConfusion ht2, fun a b hab => Inst.noConfusion hab⟩
    · rcases List.mem_cons.mp hcase with hcase | hcase
      · subst hcase
        exact ⟨fun t ht2 => Inst.noConfusion ht2, fun a b hab => Inst.noConfusion hab⟩
      · rw [List.mem_singleton] at hcase
        subst hcase
        exact ⟨fun t ht2 => Inst.noConfusion ht2, fun a b hab => Inst.noConfusion hab⟩

/-- Shared concrete example: pattern `a`. -/
def exLit : Expr := .Literal [97] false

/-- Instructions produced by compiling the example pattern. -/
def exInsts : List Inst := [.Save 0, .Char ⟨97, false⟩, .Save 1, .Match]

/-- Concrete evaluation of the compiler on the example pattern. -/
theorem exLit_compile : compile 1000 (fun x => x) exLit = .ok (exInsts, [none]) := by
  simp [compile, c, cLiteral, checkSize, push, instSize, exLit, exInsts]
  try rfl

/-- Witness for C1 at the example pattern. -/
theorem claim1_witness :
    exInsts[0]? = some (.Save 0) ∧
    exInsts.countP (fun i => decide (i = Inst.Match)) = 1 :=
  ⟨(claim1_compiled_invariants 1000 (fun x => x) exLit exInsts [none] exLit_compile).1,
   (claim1_compiled_invariants 1000 (fun x => x) exLit exInsts [none]
      exLit_compile).2.2.2.1⟩

/-- C10: every successful compilation emits at least the three bookend
instructions, so the reads of `insts[1]` and `insts[len - 3]` in
`Program::new` are in bounds. -/
theorem claim10_min_length (sl : Nat) (fold : Nat → Nat) (e : Expr)
    (insts : List Inst) (names : List (Option String))
    (h : compile sl fold e = .ok (insts, names)) :
    3 ≤ insts.length ∧ 1 < insts.length ∧ insts.length - 3 < insts.length := by
  obtain ⟨d, hins, -, -, -⟩ := compile_decomp h
  subst hins
  simp
  omega

/-- Witness for C10 at the example pattern. -/
theorem claim10_witness : 3 ≤ exInsts.length :=
  (claim10_min_length 1000 (fun x => x) exLit exInsts [none] exLit_compile).1

/-- The slot scanned by `num_captures`, shifted by one so that non-`Save`
instructions contribute zero. -/
def saveVal : Inst → Nat
  | .Save c => c + 1
  | _ => 0

theorem numStep_eq (n : Nat) (i : Inst) :
    (match i with | Inst.Save c => max n (c + 1) | _ => n) = max n (saveVal i) := by
  cases i <;> simp [saveVal]

theorem numFold_spec (l : List Inst) : ∀ a : Nat,
    (a ≤ l.foldl (fun n i => max n (saveVal i)) a) ∧
    (∀ i ∈ l, saveVal i ≤ l.foldl (fun n i => max n (saveVal i)) a) ∧
    (l.foldl (fun n i => max n (saveVal i)) a = a ∨
      ∃ i ∈ l, l.foldl (fun n i => max n (saveVal i)) a = saveVal i) := by
  induction l with
  | nil =>
    intro a
    exact ⟨Nat.le_refl a, fun i hi => absurd hi (List.not_mem_nil i), Or.inl rfl⟩
  | cons x xs ih =>
    intro a
    obtain ⟨h1, h2, h3⟩ := ih (max a (saveVal x))
    rw [List.foldl_cons]
    refine ⟨Nat.le_trans (Nat.le_max_left _ _) h1, ?_, ?_⟩
    · intro i hi
      rcases List.mem_cons.mp hi with hcase | hcase
      · subst hcase
        exact Nat.le_trans (Nat.le_max_right _ _) h1
      · exact h2 i hcase
    · rcases h3 with hcase | ⟨i, hmem, hval⟩
      · rcases Nat.le_total a (saveVal x) with hle | hle
        · right
          exact ⟨x, List.mem_cons_self x xs, by rw [hcase]; omega⟩
        · left
          rw [hcase]
          omega
      · right
        exact ⟨i, List.mem_cons_of_mem x hmem, hval⟩

theorem numCaptures_eq (insts : List Inst) :
    numCaptures insts
      = (insts.foldl (fun n i => max n (saveVal i)) 0) / 2 := by
  unfold numCaptures
  congr 1
  have : ∀ a : Nat, insts.foldl (fun n i => match i with
      | Inst.Save c => max n (c + 1) | _ => n) a
      = insts.foldl (fun n i => max n (saveVal i)) a := by
    induction insts with
    | nil => intro a; rfl
    | cons x xs ih =>
      intro a
      rw [List.foldl_cons, List.foldl_cons, numStep_eq]
      exact ih _
  exact this 0

/-- C6: `num_captures` is the greatest `Save` slot plus one, halved; on
compiled programs the maximum slot is odd, `2I + 1`, and the capture count
is `I + 1` where `I` is the greatest group index whose closing slot
appears. -/
theorem claim6_num_captures (sl : Nat) (fold : Nat → Nat) (e : Expr)
    (insts : List Inst) (names : List (Option String))
    (h : compile sl fold e = .ok (insts, names)) :
    ∃ K I : Nat,
      (Inst.Save K ∈ insts ∧ ∀ j, Inst.Save j ∈ insts → j ≤ K) ∧
      numCaptures insts = (K + 1) / 2 ∧
      K = 2 * I + 1 ∧
      (Inst.Save (2 * I + 1) ∈ insts ∧
        ∀ j, Inst.Save (2 * j + 1) ∈ insts → j ≤ I) ∧
      numCaptures insts = 1 + I := by
  obtain ⟨d, hins, hnm, ht, hs⟩ := compile_decomp h
  obtain ⟨hub, hmax, hcases⟩ :=
    numFold_spec insts 0
  set M := insts.foldl (fun n i => max n (saveVal i)) 0 with hM
  have hsave1 : Inst.Save 1 ∈ insts := by
    rw [hins]; simp
  have hsave0 : Inst.Save 0 ∈ insts := by
    rw [hins]; simp
  have hM2 : 2 ≤ M := by
    have := hmax (Inst.Save 1) hsave1
    simpa [saveVal] using this
  have hMsave : Inst.Save (M - 1) ∈ insts := by
    rcases hcases with hcase | ⟨i, hmem, hval⟩
    · omega
    · cases i with
      | Save k =>
        have : M = k + 1 := by simpa [saveVal] using hval
        have : M - 1 = k := by omega
        rw [this]
        exact hmem
      | _ => simp [saveVal] at hval; omega
  have hKmax : ∀ j, Inst.Save j ∈ insts → j ≤ M - 1 := by
    intro j hj
    have := hmax (Inst.Save j) hj
    simp [saveVal] at this
    omega
  have hModd : (M - 1) % 2 = 1 := by
    by_contra hpar
    have heven : (M - 1) % 2 = 0 := by omega
    have hMd : Inst.Save (M - 1) ∈ d := by
      rw [hins] at hMsave
      rcases List.mem_cons.mp hMsave with hcase | hcase
      · have : M - 1 = 0 := (Inst.Save.inj hcase.symm).symm
        omega
      rcases List.mem_append.mp hcase with hcase | hcase
      · exact hcase
      rcases List.mem_cons.mp hcase with hcase | hcase
      · have : M - 1 = 1 := (Inst.Save.inj hcase.symm).symm
        omega
      · rw [List.mem_singleton] at hcase
        exact absurd hcase (by simp)
    obtain ⟨-, hpair⟩ := hs (M - 1) hMd
    have hsucc : Inst.Save (M - 1 + 1) ∈ d := by
      have harith : 2 * ((M - 1) / 2) + 1 = M - 1 + 1 := by omega
      rw [harith] at hpair
      exact hpair
    have hsucc2 : Inst.Save (M - 1 + 1) ∈ insts := by
      rw [hins]
      exact List.mem_cons_of_mem _ (List.mem_append_left _ hsucc)
    have := hKmax (M - 1 + 1) hsucc2
    omega
  refine ⟨M - 1, (M - 1) / 2, ⟨hMsave, hKmax⟩, ?_, by omega, ⟨?_, ?_⟩, ?_⟩
  · rw [numCaptures_eq]
    congr 1
    omega
  · have harith : 2 * ((M - 1) / 2) + 1 = M - 1 := by omega
    rw [harith]
    exact hMsave
  · intro j hj
    have := hKmax (2 * j + 1) hj
    omega
  · rw [numCaptures_eq]
    omega

/-- Witness for C6 at the example pattern: one capture group (the implicit
whole match). -/
theorem claim6_witness : numCaptures exInsts = 1 := by
  obtain ⟨K, I, ⟨hKmem, hKmax⟩, -, hodd, -, hsum⟩ :=
    claim6_num_captures 1000 (fun x => x) exLit exInsts [none] exLit_compile
  have hK1 : K ≤ 1 := by
    have hmem := hKmem
    simp [exInsts] at hmem
    rcases hmem with hcase | hcase <;> omega
  have : I = 0 := by omega
  rw [hsum, this]

/-- C7 part 1: with a zero size limit, compiling any expression (outside
the degenerate empty-alternation chains that skip the size check, and the
malformed named groups on which the source panics) fails with
`ProgramTooLarge(0)`. -/
theorem compile_fail_zero (fold : Nat → Nat) (e : Expr)
    (hch : emptyAltChain e = false) (hbg : badGroup e = false) :
    compile 0 fold e = .error (.compiledTooBig 0) := by
  have hm := c_master 0 fold (emeas e) e (Nat.le_refl _) ⟨[.Save 0], [none]⟩
  unfold compile
  cases hc : c 0 fold e ⟨[.Save 0], [none]⟩ with
  | ok st =>
    rw [hc] at hm
    obtain ⟨hem, hbound⟩ := hm
    have hb := hbound hch
    have hlen := emits_le hem
    simp only [instSize] at hb
    simp at hlen
    omega
  | error er =>
    rw [hc] at hm
    cases er with
    | compiledTooBig l =>
      have : l = 0 := hm
      rw [this]
    | bug =>
      have : badGroup e = true := hm
      rw [hbg] at this
      exact absurd this (by simp)
    | syntaxErr => exact False.elim hm

/-- C7 part 2: a `ProgramTooLarge` error always carries the configured
limit. -/
theorem compile_err_limit {sl : Nat} {fold : Nat → Nat} {e : Expr} {l : Nat}
    (h : compile sl fold e = .error (.compiledTooBig l)) : l = sl := by
  unfold compile at h
  cases hc : c sl fold e ⟨[.Save 0], [none]⟩ with
  | ok st => rw [hc] at h; exact Except.noConfusion h
  | error er =>
    rw [hc] at h
    have hm := c_master sl fold (emeas e) e (Nat.le_refl _) ⟨[.Save 0], [none]⟩
    rw [hc] at hm
    have her : er = .compiledTooBig l := Except.error.inj h
    subst her
    exact hm

/-- C7 part 3: success implies the final size check passed, so the body
size stays within budget. -/
theorem compile_ok_bound {sl : Nat} {fold : Nat → Nat} {e : Expr}
    {insts : List Inst} {names : List (Option String)}
    (hch : emptyAltChain e = false)
    (h : compile sl fold e = .ok (insts, names)) :
    (insts.length - 2) * instSize ≤ sl := by
  unfold compile at h
  cases hc : c sl fold e ⟨[.Save 0], [none]⟩ with
  | error er => rw [hc] at h; exact Except.noConfusion h
  | ok st =>
    rw [hc] at h
    have hm := c_master sl fold (emeas e) e (Nat.le_refl _) ⟨[.Save 0], [none]⟩
    rw [hc] at hm
    obtain ⟨-, hbound⟩ := hm
    have hb := hbound hch
    injection h with h1
    injection h1 with ha hb2
    have hlen : insts.length = st.insts.length + 2 := by
      rw [← ha]; simp
    rw [hlen]
    simpa using hb

/-- C7: compilation with `size_limit = 0` fails with `ProgramTooLarge(0)`;
in general a `ProgramTooLarge` error carries the configured limit, and a
successful compilation's body passed its final size check. -/
theorem claim7_size_limit (sl : Nat) (fold : Nat → Nat) (e : Expr) :
    (emptyAltChain e = false → badGroup e = false →
      compile 0 fold e = .error (.compiledTooBig 0)) ∧
    (∀ l, compile sl fold e = .error (.compiledTooBig l) → l = sl) ∧
    (∀ insts names, emptyAltChain e = false →
      compile sl fold e = .ok (insts, names) →
      (insts.length - 2) * instSize ≤ sl) :=
  ⟨fun hch hbg => compile_fail_zero fold e hch hbg,
   fun _ h => compile_err_limit h,
   fun _ _ hch h => compile_ok_bound hch h⟩

/-- Witness for C7 at the example pattern. -/
theorem claim7_witness :
    compile 0 (fun x => x) exLit = .error (.compiledTooBig 0) :=
  (claim7_size_limit 0 (fun x => x) exLit).1
    (emptyAltChain_lit [97] false) (badGroup_lit [97] false)


/-! ### Prefix extraction: C8 (safety) and C2 -/

theorem mem_of_getElem {l : List Inst} {n : Nat} {a : Inst}
    (h : l[n]? = some a) : a ∈ l := by
  have hn : n < l.length := by
    by_contra hc
    rw [List.getElem?_eq_none (by omega)] at h
    exact Option.noConfusion h
  rw [List.getElem?_eq_getElem hn, Option.some.injEq] at h
  rw [← h]
  exact List.getElem_mem hn

theorem byteLen1_pos (cp : Nat) : 1 ≤ byteLen1 cp := by
  unfold byteLen1
  split_ifs <;> omega

theorem length_le_byteLen (s : List Nat) : s.length ≤ byteLen s := by
  induction s with
  | nil => simp [byteLen]
  | cons cp rest ih =>
    have := byteLen1_pos cp
    simp only [byteLen, List.map_cons, List.sum_cons, List.length_cons] at ih ⊢
    omega

theorem expandInner_len (orig : List (List Nat)) (cs : List Nat) :
    ∀ acc : List (List Nat),
      (cs.foldl (fun acc c => acc ++ orig.map (fun alt => alt ++ [c])) acc).length
      = acc.length + cs.length * orig.length := by
  induction cs with
  | nil => intro acc; simp
  | cons ch rest ih =>
    intro acc
    rw [List.foldl_cons, ih]
    simp only [List.length_append, List.length_map, List.length_cons,
      Nat.add_mul, Nat.one_mul]
    omega

theorem expandAlts_len (ranges : List (Nat × Nat)) (orig : List (List Nat)) :
    (expandAlts ranges orig).length
      = ((ranges.map (fun p => p.2 + 1 - p.1)).sum) * orig.length := by
  unfold expandAlts
  have aux : ∀ (rs : List (Nat × Nat)) (acc : List (List Nat)),
      (rs.foldl (fun alts p =>
        (rangeChars p.1 p.2).foldl
          (fun alts c => alts ++ orig.map (fun alt => alt ++ [c])) alts) acc).length
      = acc.length + ((rs.map (fun p => p.2 + 1 - p.1)).sum) * orig.length := by
    intro rs
    induction rs with
    | nil => intro acc; simp
    | cons p rest ih =>
      intro acc
      rw [List.foldl_cons, ih, expandInner_len]
      have hlen : (rangeChars p.1 p.2).length = p.2 + 1 - p.1 := by
        simp [rangeChars]
      rw [hlen]
      simp [Nat.add_mul]
      omega
  rw [aux]
  simp

theorem expandInner_mem {orig acc : List (List Nat)} {cs : List Nat}
    {x : List Nat}
    (h : x ∈ cs.foldl (fun acc c => acc ++ orig.map (fun alt => alt ++ [c])) acc) :
    x ∈ acc ∨ ∃ s ∈ orig, ∃ ch : Nat, x = s ++ [ch] := by
  induction cs generalizing acc with
  | nil => exact Or.inl h
  | cons ch rest ih =>
    rw [List.foldl_cons] at h
    rcases ih h with hacc | hnew
    · rcases List.mem_append.mp hacc with hacc | hmap
      · exact Or.inl hacc
      · obtain ⟨s, hs, hx⟩ := List.mem_map.mp hmap
        exact Or.inr ⟨s, hs, ch, hx.symm⟩
    · exact Or.inr hnew

theorem expandAlts_mem {ranges : List (Nat × Nat)} {orig : List (List Nat)}
    {x : List Nat} (h : x ∈ expandAlts ranges orig) :
    ∃ s ∈ orig, ∃ ch : Nat, x = s ++ [ch] := by
  unfold expandAlts at h
  have aux : ∀ (rs : List (Nat × Nat)) (acc : List (List Nat)),
      x ∈ rs.foldl (fun alts p =>
        (rangeChars p.1 p.2).foldl
          (fun alts c => alts ++ orig.map (fun alt => alt ++ [c])) alts) acc →
      x ∈ acc ∨ ∃ s ∈ orig, ∃ ch : Nat, x = s ++ [ch] := by
    intro rs
    induction rs with
    | nil => intro acc h2; exact Or.inl h2
    | cons p rest ih =>
      intro acc h2
      rw [List.foldl_cons] at h2
      rcases ih _ h2 with hacc | hnew
      · exact expandInner_mem hacc
      · exact Or.inr hnew
  rcases aux ranges [] h with hacc | hnew
  · exact absurd hacc (List.not_mem_nil x)
  · exact hnew

/-- A well-formed non-empty range list makes the Cartesian expansion of a
non-empty alts vector non-empty; an empty ranges list or empty alts vector
makes it empty. -/
theorem expandAlts_eq_nil_iff (ranges : List (Nat × Nat))
    (alts : List (List Nat)) (hwf : ∀ p ∈ ranges, p.1 ≤ p.2) :
    (expandAlts ranges alts = [] ↔ ranges = [] ∨ alts = []) := by
  rw [← List.length_eq_zero, expandAlts_len]
  rw [Nat.mul_eq_zero]
  constructor
  · intro h
    rcases h with h | h
    · left
      cases ranges with
      | nil => rfl
      | cons p rest =>
        exfalso
        have hp := hwf p (by simp)
        simp only [List.map_cons, List.sum_cons] at h
        omega
    · right
      exact List.length_eq_zero.mp h
  · intro h
    rcases h with h | h
    · subst h; simp
    · subst h; simp

theorem finishPrefixes_no_panic {alts : List (List Nat)} (hne : alts ≠ [])
    (b : Bool) : finishPrefixes alts b ≠ .panicked := by
  cases alts with
  | nil => exact absurd rfl hne
  | cons a0 rest =>
    simp only [finishPrefixes]
    split <;> simp

theorem finishPrefixes_cases {alts ps : List (List Nat)} {b c2 : Bool}
    (h : finishPrefixes alts b = .ok (ps, c2)) : ps = [] ∨ ps = alts := by
  cases alts with
  | nil => exact Res.noConfusion h
  | cons a0 rest =>
    simp only [finishPrefixes] at h
    split at h
    · left
      have := Res.ok.inj h
      exact (Prod.mk.inj this).1.symm
    · right
      have := Res.ok.inj h
      exact (Prod.mk.inj this).1.symm

theorem leadsToMatch_step {insts : List Inst} {pc : Nat} {inst : Inst}
    (hg : insts[pc]? = some inst) (hs : ∀ k, inst ≠ .Save k)
    (hj : ∀ t, inst ≠ .Jump t) (fuel : Nat) :
    leadsToMatch insts fuel pc ≠ .panicked := by
  cases fuel with
  | zero => simp [leadsToMatch]
  | succ fuel =>
    rw [leadsToMatch, hg]
    cases inst with
    | Save k => exact absurd rfl (hs k)
    | Jump t => exact absurd rfl (hj t)
    | Match => simp
    | _ => simp

/-- C8 core: when every `Ranges` instruction carries a non-empty,
well-formed range list, the alts vector stays non-empty and the loop never
panics. -/
theorem prefixesLoop_no_panic (insts : List Inst)
    (h : ∀ cr : CharRanges, .Ranges cr ∈ insts →
        cr.ranges ≠ [] ∧ ∀ p ∈ cr.ranges, p.1 ≤ p.2) :
    ∀ (fuel pc : Nat) (alts : List (List Nat)), alts ≠ [] →
      prefixesLoop insts fuel pc alts ≠ .panicked := by
  intro fuel
  induction fuel with
  | zero =>
    intro pc alts hne
    simp [prefixesLoop]
  | succ fuel ih =>
    intro pc alts hne
    rw [prefixesLoop]
    split
    · exact finishPrefixes_no_panic hne true
    · rename_i inst hg
      split
      · exact absurd rfl hne
      · rename_i a0 tail
        split
        · exact finishPrefixes_no_panic hne false
        · split
          · exact ih (pc + 1) (a0 :: tail) hne
          · rename_i ch
            exact ih (pc + 1) _ (by simp)
          · rename_i ranges
            have hmem := h ⟨ranges, false⟩ (mem_of_getElem hg)
            split
            · exact finishPrefixes_no_panic hne false
            · refine ih (pc + 1) _ ?_
              intro hnil
              rcases (expandAlts_eq_nil_iff ranges (a0 :: tail) hmem.2).mp hnil with
                hr | hA
              · exact hmem.1 hr
              · exact List.noConfusion hA
          · rename_i t
            exact ih t (a0 :: tail) hne
          · rename_i x h1 h2 h3 h4
            split
            · rename_i b hlm
              exact finishPrefixes_no_panic hne b
            · rename_i hlm
              exact absurd hlm
                (leadsToMatch_step hg (fun k hk => h1 k hk) (fun t ht => h4 t ht) fuel)
            · simp

/-- C8: a program whose `Ranges` instructions all carry at least one
well-formed range never panics in `prefixes_from_insts`: the unguarded
`alts[0]` reads stay in bounds.  Moreover an empty range list (or an
already-empty alts vector) is the only way the Cartesian expansion can
produce an empty alts vector. -/
theorem claim8_prefixes_safety (insts : List Inst) (fuel pc : Nat)
    (ranges : List (Nat × Nat)) (alts : List (List Nat))
    (h : ∀ cr : CharRanges, .Ranges cr ∈ insts →
        cr.ranges ≠ [] ∧ ∀ p ∈ cr.ranges, p.1 ≤ p.2)
    (hwf : ∀ p ∈ ranges, p.1 ≤ p.2) :
    prefixesFromInsts insts fuel pc ≠ .panicked ∧
    (expandAlts ranges alts = [] ↔ ranges = [] ∨ alts = []) :=
  ⟨prefixesLoop_no_panic insts h fuel pc [[]] (by simp),
   expandAlts_eq_nil_iff ranges alts hwf⟩

/-- Witness for C8 at a concrete program and range list. -/
theorem claim8_witness :
    prefixesFromInsts [.Save 0, .Ranges ⟨[(97, 98)], false⟩, .Save 1, .Match]
      20 1 ≠ .panicked ∧
    (expandAlts [(5, 6)] [[97]] = [] ↔ ([(5, 6)] : List (Nat × Nat)) = [] ∨
      ([[97]] : List (List Nat)) = []) :=
  claim8_prefixes_safety [.Save 0, .Ranges ⟨[(97, 98)], false⟩, .Save 1, .Match]
    20 1 [(5, 6)] [[97]]
    (by
      intro cr hcr
      rcases List.mem_cons.mp hcr with heq | hcr
      · exact Inst.noConfusion heq
      rcases List.mem_cons.mp hcr with heq | hcr
      · have hc := Inst.Ranges.inj heq
        subst hc
        exact ⟨by decide, by decide⟩
      rcases List.mem_cons.mp hcr with heq | hcr
      · exact Inst.noConfusion heq
      rcases List.mem_cons.mp hcr with heq | hcr
      · exact Inst.noConfusion heq
      · exact absurd hcr (List.not_mem_nil _))
    (by decide)

/-! ### Claim C2: prefix limits -/

/-- The concrete example pattern, built successfully by `programNew`. -/
def exProgLit : Program :=
  { insts := exInsts
    capNames := [none]
    prefixes := [[97]]
    prefixesComplete := true
    anchoredBegin := false
    anchoredEnd := false
    engine := none }

/-- Concrete evaluation of program construction on the example pattern. -/
theorem exProgLit_new :
    programNew 10 none 1000 (fun x => x) exLit = .ok (.ok exProgLit) := by
  rw [programNew, exLit_compile]
  rfl

/-- Witness for C4 at the example program. -/
theorem claim4_witness :
    (exProgLit.anchoredBegin = true ↔
      exProgLit.insts[1]? = some (.EmptyLook .StartText)) ∧
    (exProgLit.anchoredEnd = true ↔
      exProgLit.insts[exProgLit.insts.length - 3]? =
        some (.EmptyLook .EndText)) :=
  claim4_anchor_flags 10 none 1000 (fun x => x) exLit exProgLit exProgLit_new

/-- A character class of 31 singleton ranges (code points 97 to 127): its
`num_chars_in_ranges` count is `Σ (hi - lo) = 0`, so the 30-prefix stop
test never fires on it. -/
def cls31 : List (Nat × Nat) :=
  [(97, 97), (98, 98), (99, 99), (100, 100), (101, 101), (102, 102),
   (103, 103), (104, 104), (105, 105), (106, 106), (107, 107), (108, 108),
   (109, 109), (110, 110), (111, 111), (112, 112), (113, 113), (114, 114),
   (115, 115), (116, 116), (117, 117), (118, 118), (119, 119), (120, 120),
   (121, 121), (122, 122), (123, 123), (124, 124), (125, 125), (126, 126),
   (127, 127)]

/-- `[a-…] a{15}` as an expression tree: a 31-way class followed by 15
single-byte literal characters. -/
def e31 : Expr := .Concat [.Class cls31 false, .Literal (List.replicate 15 97) false]

/-- The instruction vector compiled from `e31`. -/
def insts31 : List Inst :=
  [.Save 0, .Ranges ⟨cls31, false⟩] ++ List.replicate 15 (.Char ⟨97, false⟩) ++
    [.Save 1, .Match]

/-- Concrete evaluation of the compiler on `e31`. -/
theorem e31_compile :
    compile 100000 (fun x => x) e31 = .ok (insts31, [none]) := by
  simp [compile, c, cList, cLiteral, checkSize, push, instSize, cls31, e31, insts31]
  try rfl

/-- Projection: the prefixes installed by a successful construction. -/
def resPrefixes : Res (Except Error Program) → List (List Nat)
  | .ok (.ok p) => p.prefixes
  | _ => []

/-- Projection: did construction succeed? -/
def resBuilt : Res (Except Error Program) → Bool
  | .ok (.ok _) => true
  | _ => false

/-- C2 counterexample: a successfully constructed program whose installed
prefix set holds 31 distinct strings of 16 characters each, contradicting
both the at-most-30-strings and the at-most-15-characters reading: the
stop test compares `Σ (hi - lo)`, not the number of covered code points,
and the length test bounds the bytes already accumulated, not the string
being installed. -/
theorem claim2_counterexample :
    resBuilt (programNew 1000 none 100000 (fun x => x) e31) = true ∧
    (resPrefixes (programNew 1000 none 100000 (fun x => x) e31)).length = 31 ∧
    (resPrefixes (programNew 1000 none 100000 (fun x => x) e31)).Nodup ∧
    (resPrefixes (programNew 1000 none 100000 (fun x => x) e31)).all
      (fun s => s.length == 16) = true := by
  refine ⟨?_, ?_, ?_, ?_⟩ <;> (rw [programNew, e31_compile]; decide)

theorem prefixesLoop_le (insts : List Inst) :
    ∀ (fuel pc : Nat) (alts ps : List (List Nat)) (L : Nat) (c2 : Bool),
      L ≤ 16 → (∀ s ∈ alts, s.length = L) →
      prefixesLoop insts fuel pc alts = .ok (ps, c2) →
      ∀ s ∈ ps, s.length ≤ 16 := by
  intro fuel
  induction fuel with
  | zero =>
    intro pc alts ps L c2 hL hlen hres
    exact Res.noConfusion hres
  | succ fuel ih =>
    intro pc alts ps L c2 hL hlen hres
    rw [prefixesLoop] at hres
    split at hres
    · rcases finishPrefixes_cases hres with hps | hps
      · subst hps; intro s hs; exact absurd hs (List.not_mem_nil s)
      · subst hps
        intro s hs
        rw [hlen s hs]
        exact hL
    · split at hres
      · exact Res.noConfusion hres
      · rename_i a0 tail
        split at hres
        · rcases finishPrefixes_cases hres with hps | hps
          · subst hps; intro s hs; exact absurd hs (List.not_mem_nil s)
          · subst hps
            intro s hs
            rw [hlen s hs]
            exact hL
        · rename_i hbl
          have hL15 : L ≤ PREFIX_LENGTH_LIMIT := by
            have h1 := hlen a0 (by simp)
            have h2 := length_le_byteLen a0
            omega
          split at hres
          · exact ih (pc + 1) (a0 :: tail) ps L c2 hL hlen hres
          · rename_i ch
            refine ih (pc + 1) _ ps (L + 1) c2 ?_ ?_ hres
            · simp only [PREFIX_LENGTH_LIMIT] at hL15
              omega
            · intro s hs
              obtain ⟨x, hx, hxs⟩ := List.mem_map.mp hs
              rw [← hxs]
              simp [hlen x hx]
          · rename_i ranges
            split at hres
            · rcases finishPrefixes_cases hres with hps | hps
              · subst hps; intro s hs; exact absurd hs (List.not_mem_nil s)
              · subst hps
                intro s hs
                rw [hlen s hs]
                exact hL
            · refine ih (pc + 1) _ ps (L + 1) c2 ?_ ?_ hres
              · simp only [PREFIX_LENGTH_LIMIT] at hL15
                omega
              · intro s hs
                obtain ⟨x, hx, ch, hxs⟩ := expandAlts_mem hs
                rw [hxs]
                simp [hlen x hx]
          · rename_i t hg
            exact ih t (a0 :: tail) ps L c2 hL hlen hres
          · split at hres
            · rcases finishPrefixes_cases hres with hps | hps
              · subst hps; intro s hs; exact absurd hs (List.not_mem_nil s)
              · subst hps
                intro s hs
                rw [hlen s hs]
                exact hL
            · exact Res.noConfusion hres
            · exact Res.noConfusion hres

theorem splitWalk_le (insts : List Inst) :
    ∀ (fuel pc : Nat) (prefixes ps : List (List Nat)) (pcomplete c2 : Bool),
      (∀ s ∈ prefixes, s.length ≤ 16) →
      splitWalk insts fuel pc prefixes pcomplete = .ok (ps, c2) →
      ∀ s ∈ ps, s.length ≤ 16 := by
  intro fuel
  induction fuel with
  | zero =>
    intro pc prefixes ps pcomplete c2 hpre hres
    exact Res.noConfusion hres
  | succ fuel ih =>
    intro pc prefixes ps pcomplete c2 hpre hres
    rw [splitWalk] at hres
    split at hres
    · exact Res.noConfusion hres
    · rename_i x y hsp
      split at hres
      · exact Res.noConfusion hres
      · exact Res.noConfusion hres
      · exact Res.noConfusion hres
      · exact Res.noConfusion hres
      · rename_i xps xcomplete yps ycomplete hx hy
        rw [prefixesFromInsts] at hx hy
        have hxle : ∀ s ∈ xps, s.length ≤ 16 :=
          prefixesLoop_le insts fuel x [[]] xps 0 xcomplete (by omega)
            (by intro s hs; simp at hs; simp [hs]) hx
        have hyle : ∀ s ∈ yps, s.length ≤ 16 :=
          prefixesLoop_le insts fuel y [[]] yps 0 ycomplete (by omega)
            (by intro s hs; simp at hs; simp [hs]) hy
        have hA : ∀ s ∈ prefixes ++ xps, s.length ≤ 16 := by
          intro s hs
          rcases List.mem_append.mp hs with h1 | h1
          · exact hpre s h1
          · exact hxle s h1
        have hB : ∀ s ∈ prefixes ++ yps, s.length ≤ 16 := by
          intro s hs
          rcases List.mem_append.mp hs with h1 | h1
          · exact hpre s h1
          · exact hyle s h1
        have hC : ∀ s ∈ prefixes ++ xps ++ yps, s.length ≤ 16 := by
          intro s hs
          rcases List.mem_append.mp hs with h1 | h1
          · exact hA s h1
          · exact hyle s h1
        repeat'
          first
          | split at hres
          | simp only [gt_iff_lt] at hres
        all_goals
          first
          | exact Res.noConfusion hres
          | exact ih _ _ _ _ _ hA hres
          | exact ih _ _ _ _ _ hB hres
          | (injection hres with h1
             injection h1 with h2 h3
             subst h2
             first
             | (intro s hs; exact absurd hs (List.not_mem_nil s))
             | exact hC)
    · injection hres with h1
      injection h1 with h2 h3
      subst h2
      exact hpre

theorem findPrefixes_le (insts : List Inst) (fuel : Nat)
    (ps : List (List Nat)) (c2 : Bool)
    (h : findPrefixes insts fuel = .ok (ps, c2)) :
    ∀ s ∈ ps, s.length ≤ 16 := by
  rw [findPrefixes] at h
  split at h
  · exact Res.noConfusion h
  · exact Res.noConfusion h
  · rename_i ps0 complete hfp
    split at h
    · injection h with h
      injection h with h _
      subst h
      exact prefixesLoop_le insts fuel 1 [[]] ps0 0 complete (by omega)
        (by intro s hs; simp at hs; simp [hs]) hfp
    · exact splitWalk_le insts fuel 1 [] ps true c2
        (by intro s hs; exact absurd hs (List.not_mem_nil s)) h

/-- C2 amended: every prefix string installed by a successful program
construction has at most 16 characters — one more than the byte-length
stop threshold, since the loop tests the limit before, not after,
extending the alts by one character. -/
theorem claim2_amended (fuel : Nat) (engine : Option MatchEngine)
    (sl : Nat) (fold : Nat → Nat) (e : Expr) (p : Program)
    (h : programNew fuel engine sl fold e = .ok (.ok p)) :
    ∀ s ∈ p.prefixes, s.length ≤ 16 := by
  unfold programNew at h
  split at h
  · simp at h
  · rename_i insts capNames hcomp
    split at h
    · exact Res.noConfusion h
    · exact Res.noConfusion h
    · rename_i ps complete hfp
      split at h
      · rename_i i1 iEnd h1 h2
        simp only [Res.ok.injEq, Except.ok.injEq] at h
        subst h
        intro s hs
        simp only at hs
        exact findPrefixes_le insts fuel ps complete hfp s hs
      · exact Res.noConfusion h

/-- Witness for the amended C2 at the example program. -/
theorem claim2_amended_witness :
    exProgLit.prefixes = [[97]] ∧ ([97] : List Nat).length ≤ 16 :=
  ⟨by decide,
   claim2_amended 10 none 1000 (fun x => x) exLit exProgLit exProgLit_new
     [97] (by decide)⟩


end Regex
